import Mathlib

/-
Verification of the structural object-transformation core of
src/src/utils/object.ts: deepClone, pick, omit, isObject, deepMerge,
flattenObject and fromEntries.

Embedding notes.
JavaScript values are modeled as `Val`: immutable primitives (`null`,
`undefined`, booleans, integers for numbers, strings) and references into an
explicit store (`Store`) holding the mutable objects: date objects (a
millisecond timestamp plus own enumerable properties), arrays, and plain
records.  Records and date objects carry insertion-ordered association lists
of own enumerable string-keyed properties; property read, property
assignment and `Object.keys` act on those lists exactly as in JavaScript
(assignment overwrites in place keeping the position, or appends).  The
prototype chain is not modeled: `key in obj` and `obj[key]` see own
properties only, matching the spec's data model in which a Record is a plain
mapping from text keys to Values.  Recursive functions take a fuel argument
and return `none` when the fuel is exhausted; any terminating JavaScript run
is reproduced by every sufficiently large fuel.
-/

/-- A JavaScript primitive value: null, undefined, boolean, number
(modeled as an integer), or string. -/
inductive Prim where
  | vnull
  | vundef
  | vbool (b : Bool)
  | vnum (n : Int)
  | vstr (s : String)
deriving DecidableEq, Repr

/-- A JavaScript value: a primitive, or a reference to a heap object. -/
inductive Val where
  | prim (p : Prim)
  | ref (a : Nat)
deriving DecidableEq, Repr

/-- A heap object: a date (millisecond timestamp plus own enumerable
properties), an array, or a plain record. -/
inductive Obj where
  | date (ms : Int) (fields : List (String × Val))
  | arr (elems : List Val)
  | record (fields : List (String × Val))
deriving DecidableEq, Repr

/-- The heap: an association list from addresses to objects together with
the next fresh address. -/
structure Store where
  objs : List (Nat × Obj)
  next : Nat
deriving DecidableEq, Repr

def Store.lookup (st : Store) (a : Nat) : Option Obj :=
  (st.objs.find? (fun p => p.1 = a)).map Prod.snd

def Store.update (st : Store) (a : Nat) (o : Obj) : Store :=
  ⟨st.objs.map (fun p => if p.1 = a then (a, o) else p), st.next⟩

def Store.alloc (st : Store) (o : Obj) : Store × Nat :=
  (⟨(st.next, o) :: st.objs, st.next + 1⟩, st.next)

/-- Own-property read on an association list of fields (first match; field
key lists of well-formed stores have no duplicates). -/
def getF : List (String × Val) → String → Option Val
  | [], _ => none
  | (k, v) :: rest, key => if k = key then some v else getF rest key

/-- JavaScript property assignment on a field list: overwrite in place
keeping the position if the key is present, otherwise append. -/
def setF : List (String × Val) → String → Val → List (String × Val)
  | [], key, v => [(key, v)]
  | (k, w) :: rest, key, v =>
    if k = key then (k, v) :: rest else (k, w) :: setF rest key v

/-- JavaScript truthiness, as used by the `!target[key]` test in deepMerge:
null, undefined, false, 0 and the empty string are falsy; every object
reference is truthy. -/
def truthy : Val → Bool
  | .prim .vnull => false
  | .prim .vundef => false
  | .prim (.vbool b) => b
  | .prim (.vnum n) => n != 0
  | .prim (.vstr s) => s != ""
  | .ref _ => true

/-- The library's isObject test (object.ts lines 66-68):
`item !== null && typeof item === "object" && !Array.isArray(item)`.
True exactly for references to records and to date objects; note that a
date object passes this test. -/
def isObject (st : Store) (v : Val) : Bool :=
  match v with
  | .prim _ => false
  | .ref a =>
    match st.lookup a with
    | some (.arr _) => false
    | some _ => true
    | none => false

/-- The own enumerable properties seen by `Object.keys` / `Object.entries`
on a record or date object (empty for primitives and arrays, which the
code never enumerates). -/
def objFields (st : Store) (v : Val) : List (String × Val)
  :=
  match v with
  | .prim _ => []
  | .ref a =>
    match st.lookup a with
    | some (.record f) => f
    | some (.date _ f) => f
    | _ => []

def objKeys (st : Store) (v : Val) : List String :=
  (objFields st v).map Prod.fst

/-- Property read `v[k]`: the own property if present, else undefined. -/
def getField (st : Store) (v : Val) (k : String) : Val :=
  (getF (objFields st v) k).getD (.prim .vundef)

/-- Property assignment `v[k] = w` (the effect of
`Object.assign(v, { [k]: w })`) on a record or date object. -/
def assignField (st : Store) (v : Val) (k : String) (w : Val) : Store :=
  match v with
  | .prim _ => st
  | .ref a =>
    match st.lookup a with
    | some (.record f) => st.update a (.record (setF f k w))
    | some (.date ms f) => st.update a (.date ms (setF f k w))
    | _ => st

/-- The semantics of the builtin `Object.fromEntries`: insert each pair in
sequence, later occurrences of a key overwriting earlier ones. -/
def jsFromEntries (entries : List (String × Val)) : List (String × Val) :=
  entries.foldl (fun acc p => setF acc p.1 p.2) []

/-- pick (object.ts lines 34-44): `keys.reduce` inserting `obj[key]` for
each requested key that is present in `obj`. -/
def pick (obj : List (String × Val)) (keys : List String) : List (String × Val) :=
  keys.foldl
    (fun acc k =>
      match getF obj k with
      | some v => setF acc k v
      | none => acc)
    []

/-- omit (object.ts lines 52-59): `Object.fromEntries` of the entries of
`obj` whose key is not in `keys`.  (`omit` is a Lean keyword, hence the
quoted identifier.) -/
def «omit» (obj : List (String × Val)) (keys : List String) : List (String × Val) :=
  jsFromEntries (obj.filter (fun p => !(keys.contains p.1)))

/-- fromEntries (object.ts lines 133-140): `entries.reduce` performing
`acc[key] = value` on an initially empty record. -/
def fromEntries (entries : List (String × Val)) : List (String × Val) :=
  entries.foldl (fun acc p => setF acc p.1 p.2) []

/-- Values reachable one step from an object: array elements and the field
values of records and date objects. -/
def objVals : Obj → List Val
  | .date _ f => f.map Prod.snd
  | .arr l => l
  | .record f => f.map Prod.snd

/-- The own enumerable field list of an object (empty for arrays). -/
def objFieldsOf : Obj → List (String × Val)
  | .date _ f => f
  | .arr _ => []
  | .record f => f

/-- Bound check for the single reference possibly held by a value. -/
def valRefLt (n : Nat) : Val → Bool
  | .ref b => b < n
  | .prim _ => true

/-- Well-formed store: every stored address is below `next`, addresses are
unique, field lists have unique keys, and every reference held by a stored
object points below `next`. -/
def WS (st : Store) : Prop :=
  (∀ p ∈ st.objs, p.1 < st.next) ∧
  (st.objs.map Prod.fst).Nodup ∧
  (∀ p ∈ st.objs, ((objFieldsOf p.2).map Prod.fst).Nodup) ∧
  (∀ p ∈ st.objs, ∀ w ∈ objVals p.2, valRefLt st.next w = true)

instance (st : Store) : Decidable (WS st) := by
  unfold WS
  infer_instance

-- The recursive operations: deepClone, deepMerge, flattenObject.

/-- State-threading clone of array elements (`obj.map(item => deepClone(item))`),
parametrised by the recursive clone call at lower fuel. -/
def cloneList (cl : Store → Val → Option (Store × Val)) :
    Store → List Val → Option (Store × List Val)
  | st, [] => some (st, [])
  | st, v :: rest =>
    match cl st v with
    | none => none
    | some (st1, v1) =>
      match cloneList cl st1 rest with
      | none => none
      | some (st2, rest1) => some (st2, v1 :: rest1)

/-- State-threading clone of record entries
(`Object.entries(obj).map(([key, value]) => [key, deepClone(value)])`). -/
def cloneFields (cl : Store → Val → Option (Store × Val)) :
    Store → List (String × Val) → Option (Store × List (String × Val))
  | st, [] => some (st, [])
  | st, (k, v) :: rest =>
    match cl st v with
    | none => none
    | some (st1, v1) =>
      match cloneFields cl st1 rest with
      | none => none
      | some (st2, rest1) => some (st2, (k, v1) :: rest1)

/-- deepClone (object.ts lines 6-26).  Primitives are returned as they are;
a Date yields a fresh date carrying the same timestamp (`new
Date(obj.getTime())`, which drops any custom own properties); an array maps
the clone over its elements into a fresh array; any other object clones its
entries and rebuilds a fresh record via `Object.fromEntries`. -/
def deepClone : Nat → Store → Val → Option (Store × Val)
  | 0, _, _ => none
  | fuel + 1, st, v =>
    match v with
    | .prim p => some (st, .prim p)
    | .ref a =>
      match st.lookup a with
      | none => none
      | some (.date ms _) =>
        let r := st.alloc (.date ms [])
        some (r.1, .ref r.2)
      | some (.arr elems) =>
        match cloneList (deepClone fuel) st elems with
        | none => none
        | some (st1, elems1) =>
          let r := st1.alloc (.arr elems1)
          some (r.1, .ref r.2)
      | some (.record f) =>
        match cloneFields (deepClone fuel) st f with
        | none => none
        | some (st1, f1) =>
          let r := st1.alloc (.record (jsFromEntries f1))
          some (r.1, .ref r.2)

/-- The `Object.keys(source).forEach` body of deepMerge (object.ts lines
86-98), iterated over the snapshot of the source's keys; `dm` is the
recursive deepMerge call (at lower fuel) specialised to one source.  For a
key whose current source value passes isObject: if `target[key]` is falsy
it is replaced by a freshly allocated empty record
(`Object.assign(target, { [key]: {} })`), then the source value is merged
into the re-read `target[key]`.  Otherwise `target[key] = source[key]`. -/
def mergeKeys (dm : Store → Val → Val → Option Store) (target source : Val) :
    Store → List String → Option Store
  | st, [] => some st
  | st, k :: ks =>
    if isObject st (getField st source k) then
      let st1 :=
        if truthy (getField st target k) then st
        else
          let r := st.alloc (.record [])
          assignField r.1 target k (.ref r.2)
      match dm st1 (getField st1 target k) (getField st1 source k) with
      | none => none
      | some st2 => mergeKeys dm target source st2 ks
    else
      mergeKeys dm target source (assignField st target k (getField st source k)) ks

/-- deepMerge (object.ts lines 76-102).  With no sources the target is
returned unchanged; a literally undefined first source also returns the
target (dropping any remaining sources, as the early `return` does); when
both target and the current source pass isObject the source's keys are
merged into the target; finally deepMerge recurses on the remaining
sources.  The returned value is always the target value itself. -/
def deepMerge : Nat → Store → Val → List Val → Option (Store × Val)
  | 0, _, _, _ => none
  | fuel + 1, st, target, sources =>
    match sources with
    | [] => some (st, target)
    | source :: rest =>
      if source = Val.prim Prim.vundef then some (st, target)
      else
        match
          (if isObject st target && isObject st source then
            mergeKeys (fun s x y => (deepMerge fuel s x [y]).map Prod.fst)
              target source st (objKeys st source)
          else some st)
        with
        | none => none
        | some st1 => deepMerge fuel st1 target rest

/-- The `Object.keys(obj).reduce` body of flattenObject (object.ts lines
114-125), iterated over the object's entries with accumulator `acc`; `fl`
is the recursive flattenObject call at lower fuel.  A value passing the
`typeof value === "object" && value !== null && !Array.isArray(value)`
test (the same test as isObject) is flattened recursively and its entries
merged into the accumulator via `Object.assign`; any other value is stored
at its dot-joined path. -/
def flattenFields (fl : Store → Val → String → Option (List (String × Val)))
    (st : Store) (pfx : String) :
    List (String × Val) → List (String × Val) → Option (List (String × Val))
  | [], acc => some acc
  | (k, v) :: rest, acc =>
    let pre := if pfx = "" then "" else pfx ++ "."
    if isObject st v then
      match fl st v (pre ++ k) with
      | none => none
      | some inner =>
        flattenFields fl st pfx rest (inner.foldl (fun a p => setF a p.1 p.2) acc)
    else
      flattenFields fl st pfx rest (setF acc (pre ++ k) v)

/-- flattenObject (object.ts lines 110-126). -/
def flattenObject : Nat → Store → Val → String → Option (List (String × Val))
  | 0, _, _, _ => none
  | fuel + 1, st, v, pfx =>
    flattenFields (flattenObject fuel) st pfx (objFields st v) []

-- Deep equality: the value tree a value denotes.

/-- The tree of a value in the spec's data model: primitives, millisecond
timestamps for date-like values, lists, and records.  Two values are
deep-equal exactly when they denote the same tree. -/
inductive VTree where
  | prim (p : Prim)
  | date (ms : Int)
  | arr (elems : List VTree)
  | record (fields : List (String × VTree))

def treeList (tt : Val → Option VTree) : List Val → Option (List VTree)
  | [] => some []
  | v :: rest =>
    match tt v, treeList tt rest with
    | some t, some r => some (t :: r)
    | _, _ => none

def treeFields (tt : Val → Option VTree) :
    List (String × Val) → Option (List (String × VTree))
  | [] => some []
  | (k, v) :: rest =>
    match tt v, treeFields tt rest with
    | some t, some r => some ((k, t) :: r)
    | _, _ => none

/-- Reads a value as a tree, following references through the store. -/
def toTree : Nat → Store → Val → Option VTree
  | 0, _, _ => none
  | fuel + 1, st, v =>
    match v with
    | .prim p => some (.prim p)
    | .ref a =>
      match st.lookup a with
      | none => none
      | some (.date ms _) => some (.date ms)
      | some (.arr elems) => (treeList (toTree fuel st) elems).map .arr
      | some (.record f) => (treeFields (toTree fuel st) f).map .record

-- Reachability in the heap.

/-- Full reachability: the addresses reachable from a value through array
elements and through the fields of records and date objects.  Two values
share mutable sub-structure exactly when they reach a common address. -/
inductive ReachV (st : Store) : Val → Nat → Prop
  | here (a : Nat) : ReachV st (.ref a) a
  | step (a b : Nat) (o : Obj) (w : Val) :
      st.lookup a = some o → w ∈ objVals o → ReachV st w b → ReachV st (.ref a) b

def objFieldVals (o : Obj) : List Val := (objFieldsOf o).map Prod.snd

/-- Field reachability: the addresses reachable from a value through the
fields of records and date objects only (array elements are not
followed).  deepMerge only ever mutates objects field-reachable from its
target. -/
inductive FReach (st : Store) : Val → Nat → Prop
  | here (a : Nat) : FReach st (.ref a) a
  | step (a b : Nat) (o : Obj) (w : Val) :
      st.lookup a = some o → w ∈ objFieldVals o → FReach st w b → FReach st (.ref a) b

/-- Specification-side definition of last-write-wins lookup: the value of
the last pair carrying the key, if any.  Used to compare `fromEntries`
against the spec's "later occurrence overwrites the earlier one". -/
def lastEntry (entries : List (String × Val)) (k : String) : Option Val :=
  (entries.reverse.find? (fun p => p.1 = k)).map Prod.snd

/-- The fresh zone written by an operation that started with `next = n` is
closed: every object stored at an address `≥ n` holds only primitives and
references to addresses `≥ n`. -/
def FreshClosed (n : Nat) (st : Store) : Prop :=
  ∀ a o, n ≤ a → st.lookup a = some o →
    ∀ w ∈ objVals o, ∀ b, w = Val.ref b → n ≤ b

/-- The conjunction of guarantees a clone call gives, with `cl` the clone
function and `tfuel` the fuel at which the value trees are read: addresses
only grow, old addresses are untouched, well-formedness is kept, the fresh
zone is closed, the output is the same primitive or a fresh reference, and
input and output denote the same tree. -/
def CloneSpec (cl : Store → Val → Option (Store × Val)) (tfuel : Nat) : Prop :=
  ∀ st v st' v', WS st → cl st v = some (st', v') →
    st.next ≤ st'.next ∧
    (∀ a, a < st.next → st'.lookup a = st.lookup a) ∧
    WS st' ∧
    FreshClosed st.next st' ∧
    ((∃ p, v = .prim p ∧ v' = v) ∨
      (∃ b0 b, v = .ref b0 ∧ v' = .ref b ∧ st.next ≤ b ∧ b < st'.next)) ∧
    (∃ tr, toTree tfuel st v = some tr ∧ toTree tfuel st' v' = some tr)

/-- A value acceptable as a newly written field during a merge that
started with `next = n`: a primitive, a reference into the fresh zone, a
reference to an array already stored, or an already dangling reference.
deepMerge never writes a reference to a pre-existing record or date. -/
def newValOk (st : Store) (n : Nat) : Val → Prop
  | .prim _ => True
  | .ref b => n ≤ b ∨ (∃ l, st.lookup b = some (.arr l)) ∨ st.lookup b = none

/-- The shape shell deepMerge preserves: arrays are untouched entirely,
date objects keep their timestamp, records stay records. -/
def sameShell : Obj → Obj → Prop
  | .date ms _, .date ms' _ => ms = ms'
  | .arr l, .arr l' => l = l'
  | .record _, .record _ => True
  | _, _ => False

/-- How the store evolves across a deepMerge whose target value is `t`:
addresses only grow; every old object survives with the same shell, any
new field value being `newValOk`; an object that actually changed is
field-reachable from the target; old dangling addresses stay dangling; and
every fresh allocation is a record all of whose fields are `newValOk`. -/
structure MergeEvolve (st st' : Store) (t : Val) : Prop where
  nextLe : st.next ≤ st'.next
  oldSome : ∀ a o, st.lookup a = some o → ∃ o', st'.lookup a = some o' ∧
    sameShell o o' ∧
    (∀ k v, getF (objFieldsOf o') k = some v →
      getF (objFieldsOf o) k = some v ∨ newValOk st st.next v)
  oldNone : ∀ a, a < st.next → st.lookup a = none → st'.lookup a = none
  modReach : ∀ a o o', st.lookup a = some o → st'.lookup a = some o' →
    o ≠ o' → FReach st t a
  fresh : ∀ a o', st.next ≤ a → st'.lookup a = some o' →
    ∃ f, o' = .record f ∧ ∀ k v, getF f k = some v → newValOk st st.next v

/-- Records and date objects: the shapes whose fields deepMerge can write
(`Object.assign` is only ever applied to values passing isObject). -/
def isRD : Obj → Prop
  | .arr _ => False
  | _ => True

/-- The admissible targets of an inner merge while merging into `t`:
`t` itself, the value of a field of `t`'s own object, or a `newValOk`
value (a primitive, a fresh reference, an array, or a dangling
reference). -/
def MergeSub (st : Store) (n : Nat) (t t1 : Val) : Prop :=
  t1 = t ∨
  (∃ a o k, t = Val.ref a ∧ st.lookup a = some o ∧
    getF (objFieldsOf o) k = some t1) ∨
  newValOk st n t1

/-- The guarantee a recursive deepMerge call hands to the key loop. -/
def MergeDM (dm : Store → Val → Val → Option Store) : Prop :=
  ∀ st x y st', WS st → dm st x y = some st' →
    MergeEvolve st st' x ∧ WS st'

-- Basic lemmas about field lists.

theorem getF_setF_self (f : List (String × Val)) (k : String) (v : Val) :
    getF (setF f k v) k = some v := by
  induction f with
  | nil => simp [getF, setF]
  | cons p rest ih =>
    obtain ⟨k', w⟩ := p
    by_cases h : k' = k <;> simp [getF, setF, h, ih]

theorem getF_setF_other (f : List (String × Val)) (k k' : String) (v : Val)
    (h : k' ≠ k) : getF (setF f k' v) k = getF f k := by
  induction f with
  | nil => simp [getF, setF, h]
  | cons p rest ih =>
    obtain ⟨k'', w⟩ := p
    by_cases h2 : k'' = k' <;> by_cases h3 : k'' = k <;>
      simp_all [getF, setF]

theorem getF_isSome_iff_mem (f : List (String × Val)) (k : String) :
    (getF f k).isSome = true ↔ k ∈ f.map Prod.fst := by
  induction f with
  | nil => simp [getF]
  | cons p rest ih =>
    obtain ⟨k', v⟩ := p
    by_cases h : k' = k
    · subst h
      simp [getF]
    · simp only [getF, h, if_false, List.map_cons, List.mem_cons]
      rw [ih]
      constructor
      · exact fun hm => Or.inr hm
      · rintro (hm | hm)
        · exact absurd hm.symm h
        · exact hm

theorem setF_keys (f : List (String × Val)) (k : String) (v : Val) :
    (setF f k v).map Prod.fst =
      if k ∈ f.map Prod.fst then f.map Prod.fst else f.map Prod.fst ++ [k] := by
  induction f with
  | nil => simp [setF]
  | cons p rest ih =>
    obtain ⟨k', w⟩ := p
    by_cases h : k' = k
    · subst h
      simp [setF]
    · have hne : ¬k = k' := fun e => h e.symm
      by_cases h2 : k ∈ rest.map Prod.fst
      · simp [setF, h, h2, hne, ih]
      · simp [setF, h, h2, hne, ih]

-- pick: the general read-back equation.

theorem pick_step_getF (obj acc : List (String × Val)) (k' k : String) :
    getF (match getF obj k' with
          | some v => setF acc k' v
          | none => acc) k =
    if k = k' ∧ (getF obj k).isSome then getF obj k else getF acc k := by
  by_cases heq : k = k'
  · subst heq
    cases hg : getF obj k with
    | none => simp [hg]
    | some v => simp [hg, getF_setF_self]
  · cases hg : getF obj k' with
    | none => simp [heq]
    | some v => simp [hg, heq, getF_setF_other acc k k' v (fun e => heq e.symm)]

theorem pick_foldl_getF (obj : List (String × Val)) (keys : List String)
    (acc : List (String × Val)) (k : String) :
    getF (keys.foldl
      (fun acc2 kk =>
        match getF obj kk with
        | some v => setF acc2 kk v
        | none => acc2)
      acc) k =
    if k ∈ keys ∧ (getF obj k).isSome then getF obj k else getF acc k := by
  induction keys generalizing acc with
  | nil => simp
  | cons k' ks ih =>
    simp only [List.foldl_cons]
    rw [ih, pick_step_getF]
    by_cases hk' : k = k'
    · subst hk'
      by_cases hs : (getF obj k).isSome = true <;>
        by_cases hmem : k ∈ ks <;>
        simp [hs, hmem]
    · by_cases hs : (getF obj k).isSome = true <;>
        by_cases hmem : k ∈ ks <;>
        simp [hs, hk', hmem]

theorem pick_getF (obj : List (String × Val)) (keys : List String) (k : String) :
    getF (pick obj keys) k = if k ∈ keys then getF obj k else none := by
  unfold pick
  rw [pick_foldl_getF]
  by_cases hmem : k ∈ keys
  · by_cases hs : (getF obj k).isSome
    · simp [hmem, hs]
    · cases hg : getF obj k with
      | none => simp [hmem, hg, getF]
      | some v => simp [hg] at hs
  · simp [hmem, getF]

-- fromEntries and omit: last-write-wins read-back.

theorem lastEntry_cons (p : String × Val) (rest : List (String × Val)) (k : String) :
    lastEntry (p :: rest) k =
      (lastEntry rest k).or (if p.1 = k then some p.2 else none) := by
  unfold lastEntry
  rw [List.reverse_cons, List.find?_append]
  cases hfind : List.find? (fun q => q.1 = k) rest.reverse with
  | none =>
    simp only [Option.or, hfind]
    by_cases h : p.1 = k <;> simp [List.find?, h]
  | some q =>
    simp [Option.or, hfind]

theorem foldl_setF_getF (es : List (String × Val)) (acc : List (String × Val))
    (k : String) :
    getF (es.foldl (fun a p => setF a p.1 p.2) acc) k =
      (lastEntry es k).or (getF acc k) := by
  induction es generalizing acc with
  | nil => simp [lastEntry, List.find?]
  | cons p rest ih =>
    simp only [List.foldl_cons]
    rw [ih, lastEntry_cons, Option.or_assoc]
    congr 1
    by_cases h : p.1 = k
    · subst h
      simp [getF_setF_self, Option.or]
    · simp [h, getF_setF_other acc k p.1 p.2 h, Option.or]

theorem fromEntries_getF (es : List (String × Val)) (k : String) :
    getF (fromEntries es) k = lastEntry es k := by
  unfold fromEntries
  rw [foldl_setF_getF]
  simp [getF, Option.or_none]

theorem jsFromEntries_getF (es : List (String × Val)) (k : String) :
    getF (jsFromEntries es) k = lastEntry es k := by
  unfold jsFromEntries
  rw [foldl_setF_getF]
  simp [getF, Option.or_none]

theorem lastEntry_eq_none_of_not_mem (es : List (String × Val)) (k : String)
    (h : k ∉ es.map Prod.fst) : lastEntry es k = none := by
  induction es with
  | nil => simp [lastEntry, List.find?]
  | cons p rest ih =>
    rw [lastEntry_cons]
    have h1 : p.1 ≠ k := by
      intro e
      exact h (by simp [e])
    have h2 : k ∉ rest.map Prod.fst := fun hm => h (by simp [hm])
    simp [ih h2, h1, Option.or]

theorem lastEntry_eq_getF_of_nodup (es : List (String × Val)) (k : String)
    (h : (es.map Prod.fst).Nodup) : lastEntry es k = getF es k := by
  induction es with
  | nil => simp [lastEntry, List.find?, getF]
  | cons p rest ih =>
    rw [lastEntry_cons]
    simp only [List.map_cons, List.nodup_cons] at h
    by_cases he : p.1 = k
    · have : k ∉ rest.map Prod.fst := by
        rw [← he]; exact h.1
      rw [lastEntry_eq_none_of_not_mem rest k this]
      obtain ⟨k', v⟩ := p
      simp only at he
      subst he
      simp [getF, Option.or]
    · rw [ih h.2]
      obtain ⟨k', v⟩ := p
      simp only at he
      simp [getF, he, Option.or_none]

theorem filter_keys_getF_of_mem (obj : List (String × Val)) (keys : List String)
    (k : String) (h : k ∈ keys) :
    getF (obj.filter (fun p => !(keys.contains p.1))) k = none := by
  induction obj with
  | nil => simp [getF]
  | cons p rest ih =>
    simp only [List.elem_eq_mem] at ih ⊢
    by_cases hc : p.1 ∈ keys
    · simp [List.filter_cons, hc, ih]
    · have hne : p.1 ≠ k := fun e => hc (e ▸ h)
      simp [List.filter_cons, hc, getF, hne, ih]

theorem filter_keys_getF_of_not_mem (obj : List (String × Val)) (keys : List String)
    (k : String) (h : k ∉ keys) :
    getF (obj.filter (fun p => !(keys.contains p.1))) k = getF obj k := by
  induction obj with
  | nil => simp
  | cons p rest ih =>
    simp only [List.elem_eq_mem] at ih ⊢
    by_cases he : p.1 = k
    · obtain ⟨k1, v1⟩ := p
      simp only at he
      subst he
      simp [List.filter_cons, h, getF]
    · by_cases hc : p.1 ∈ keys
      · simp [List.filter_cons, hc, ih, getF, he]
      · simp [List.filter_cons, hc, ih, getF, he]

theorem omit_getF (obj : List (String × Val)) (keys : List String) (k : String)
    (hnd : (obj.map Prod.fst).Nodup) :
    getF («omit» obj keys) k = if k ∈ keys then none else getF obj k := by
  unfold «omit»
  rw [jsFromEntries_getF]
  have hsub : ((obj.filter (fun p => !(keys.contains p.1))).map Prod.fst).Sublist
      (obj.map Prod.fst) := List.Sublist.map _ (List.filter_sublist obj)
  rw [lastEntry_eq_getF_of_nodup _ _ (hsub.nodup hnd)]
  by_cases h : k ∈ keys
  · rw [filter_keys_getF_of_mem obj keys k h]
    simp [h]
  · rw [filter_keys_getF_of_not_mem obj keys k h]
    simp [h]

/-- C8: for every record and key list (duplicates and absent keys are
tolerated, the call is total), pick returns exactly the entries of the
record whose key is requested and actually present: the read-back of the
result equals the record's own value for requested keys and is absent for
all others, and a requested key missing from the record is silently
skipped, never inserted as a missing or undefined entry. -/
theorem claim_C8_pick_exact (obj : List (String × Val)) (keys : List String)
    (k : String) :
    getF (pick obj keys) k = (if k ∈ keys then getF obj k else none) ∧
    (k ∈ (pick obj keys).map Prod.fst ↔ (k ∈ keys ∧ k ∈ obj.map Prod.fst)) := by
  refine ⟨pick_getF obj keys k, ?_⟩
  rw [← getF_isSome_iff_mem, ← getF_isSome_iff_mem, pick_getF]
  by_cases h : k ∈ keys <;> simp [h]

/-- C7: when the record's keys are unique and every requested key is
present in the record, pick and omit partition the record's entries
exactly: their key sets are disjoint, their union is the record's key set,
and each entry keeps the value it has in the record. -/
theorem claim_C7_pick_omit_partition (obj : List (String × Val))
    (keys : List String) (hnd : (obj.map Prod.fst).Nodup)
    (hin : ∀ k ∈ keys, k ∈ obj.map Prod.fst) :
    (∀ k, ¬(k ∈ (pick obj keys).map Prod.fst ∧
        k ∈ («omit» obj keys).map Prod.fst)) ∧
    (∀ k, k ∈ obj.map Prod.fst ↔
        (k ∈ (pick obj keys).map Prod.fst ∨ k ∈ («omit» obj keys).map Prod.fst)) ∧
    (∀ k, k ∈ (pick obj keys).map Prod.fst → getF (pick obj keys) k = getF obj k) ∧
    (∀ k, k ∈ («omit» obj keys).map Prod.fst → getF («omit» obj keys) k = getF obj k) := by
  have hp : ∀ k, k ∈ (pick obj keys).map Prod.fst ↔
      (k ∈ keys ∧ (getF obj k).isSome = true) := by
    intro k
    rw [← getF_isSome_iff_mem, pick_getF]
    by_cases h : k ∈ keys <;> simp [h]
  have ho : ∀ k, k ∈ («omit» obj keys).map Prod.fst ↔
      (k ∉ keys ∧ (getF obj k).isSome = true) := by
    intro k
    rw [← getF_isSome_iff_mem, omit_getF obj keys k hnd]
    by_cases h : k ∈ keys <;> simp [h]
  refine ⟨?_, ?_, ?_, ?_⟩
  · rintro k ⟨h1, h2⟩
    exact ((ho k).1 h2).1 ((hp k).1 h1).1
  · intro k
    constructor
    · intro hk
      by_cases h : k ∈ keys
      · exact Or.inl ((hp k).2 ⟨h, (getF_isSome_iff_mem obj k).2 hk⟩)
      · exact Or.inr ((ho k).2 ⟨h, (getF_isSome_iff_mem obj k).2 hk⟩)
    · rintro (hk | hk)
      · exact hin k ((hp k).1 hk).1
      · exact (getF_isSome_iff_mem obj k).1 ((ho k).1 hk).2
  · intro k hk
    rw [pick_getF]
    simp [((hp k).1 hk).1]
  · intro k hk
    rw [omit_getF obj keys k hnd]
    simp [((ho k).1 hk).1]

/-- Witness for C7 at the record {a: 1, b: 2} with keys ["a"]. -/
theorem claim_C7_pick_omit_partition_witness :
    (([("a", Val.prim (Prim.vnum 1)), ("b", Val.prim (Prim.vnum 2))].map Prod.fst).Nodup) ∧
    (∀ k ∈ ["a"], k ∈ ([("a", Val.prim (Prim.vnum 1)),
        ("b", Val.prim (Prim.vnum 2))].map Prod.fst)) ∧
    ((∀ k, ¬(k ∈ (pick [("a", Val.prim (Prim.vnum 1)), ("b", Val.prim (Prim.vnum 2))]
          ["a"]).map Prod.fst ∧
        k ∈ («omit» [("a", Val.prim (Prim.vnum 1)), ("b", Val.prim (Prim.vnum 2))]
          ["a"]).map Prod.fst)) ∧
    (∀ k, k ∈ ([("a", Val.prim (Prim.vnum 1)), ("b", Val.prim (Prim.vnum 2))].map Prod.fst) ↔
        (k ∈ (pick [("a", Val.prim (Prim.vnum 1)), ("b", Val.prim (Prim.vnum 2))]
          ["a"]).map Prod.fst ∨
         k ∈ («omit» [("a", Val.prim (Prim.vnum 1)), ("b", Val.prim (Prim.vnum 2))]
          ["a"]).map Prod.fst)) ∧
    (∀ k, k ∈ (pick [("a", Val.prim (Prim.vnum 1)), ("b", Val.prim (Prim.vnum 2))]
          ["a"]).map Prod.fst →
        getF (pick [("a", Val.prim (Prim.vnum 1)), ("b", Val.prim (Prim.vnum 2))] ["a"]) k =
        getF [("a", Val.prim (Prim.vnum 1)), ("b", Val.prim (Prim.vnum 2))] k) ∧
    (∀ k, k ∈ («omit» [("a", Val.prim (Prim.vnum 1)), ("b", Val.prim (Prim.vnum 2))]
          ["a"]).map Prod.fst →
        getF («omit» [("a", Val.prim (Prim.vnum 1)), ("b", Val.prim (Prim.vnum 2))] ["a"]) k =
        getF [("a", Val.prim (Prim.vnum 1)), ("b", Val.prim (Prim.vnum 2))] k)) :=
  ⟨by decide, by decide,
    claim_C7_pick_omit_partition _ _ (by decide) (by decide)⟩

/-- C9: fromEntries inserts each pair in sequence and later occurrences of
a key overwrite earlier ones (last-write-wins): the read-back of the result
is the value of the last pair carrying the key; in particular
fromEntries [["a",1],["a",2]] yields {a: 2}. -/
theorem claim_C9_fromEntries_last_write_wins :
    (∀ es k, getF (fromEntries es) k = lastEntry es k) ∧
    fromEntries [("a", Val.prim (Prim.vnum 1)), ("a", Val.prim (Prim.vnum 2))] =
      [("a", Val.prim (Prim.vnum 2))] :=
  ⟨fromEntries_getF, by decide⟩

-- Store lemmas.

theorem find?_map_update (l : List (Nat × Obj)) (a : Nat) (o : Obj) (b : Nat) :
    ((l.map (fun p => if p.1 = a then (a, o) else p)).find? (fun p => p.1 = b)) =
      if b = a then (l.find? (fun p => p.1 = a)).map (fun _ => (a, o))
      else l.find? (fun p => p.1 = b) := by
  induction l with
  | nil => simp
  | cons p rest ih =>
    simp only [List.map_cons]
    by_cases h1 : p.1 = a
    · by_cases h2 : b = a
      · subst h2
        simp [List.find?, h1, ih]
      · have h3 : ¬(a = b) := fun e => h2 e.symm
        have h4 : ¬(p.1 = b) := by rw [h1]; exact h3
        simp [List.find?, h1, h2, h3, h4, ih]
    · rw [if_neg h1]
      by_cases h2 : p.1 = b
      · have h3 : ¬(b = a) := fun e => h1 (by rw [h2, e])
        rw [List.find?_cons_of_pos _ (by simp [h2]), if_neg h3,
            List.find?_cons_of_pos _ (by simp [h2])]
      · rw [List.find?_cons_of_neg _ (by simp [h2]), ih]
        by_cases h3 : b = a
        · rw [if_pos h3, if_pos h3, List.find?_cons_of_neg _ (by simp [h1])]
        · rw [if_neg h3, if_neg h3, List.find?_cons_of_neg _ (by simp [h2])]

theorem Store.lookup_update (st : Store) (a : Nat) (o : Obj) (b : Nat) :
    (st.update a o).lookup b =
      if b = a then (st.lookup a).map (fun _ => o) else st.lookup b := by
  show ((st.objs.map (fun p => if p.1 = a then (a, o) else p)).find?
      (fun p => p.1 = b)).map Prod.snd = _
  rw [find?_map_update]
  by_cases h : b = a
  · subst h
    cases hf : st.objs.find? (fun p => p.1 = b) <;> simp [Store.lookup, hf]
  · simp [h, Store.lookup]

theorem Store.lookup_alloc (st : Store) (o : Obj) (b : Nat) :
    (st.alloc o).1.lookup b = if b = st.next then some o else st.lookup b := by
  show (((st.next, o) :: st.objs).find? (fun p => p.1 = b)).map Prod.snd = _
  by_cases h : st.next = b
  · subst h
    rw [List.find?_cons_of_pos _ (by simp)]
    simp
  · have h2 : ¬(b = st.next) := fun e => h e.symm
    rw [List.find?_cons_of_neg _ (by simp [h])]
    simp [h2, Store.lookup]

theorem Store.lookup_lt_next (st : Store) (a : Nat) (o : Obj) (hws : WS st)
    (h : st.lookup a = some o) : a < st.next := by
  unfold Store.lookup at h
  cases hf : st.objs.find? (fun p => p.1 = a) with
  | none => rw [hf] at h; simp at h
  | some p =>
    have hp : p.1 = a := by
      have := List.find?_some hf
      simpa using this
    have hm : p ∈ st.objs := List.mem_of_find?_eq_some hf
    exact hp ▸ hws.1 p hm

theorem Store.update_next (st : Store) (a : Nat) (o : Obj) :
    (st.update a o).next = st.next := rfl

theorem Store.alloc_next (st : Store) (o : Obj) :
    (st.alloc o).1.next = st.next + 1 := rfl

-- Unfolding lemmas for the object primitives, conditioned on the store.

theorem isObject_prim (st : Store) (p : Prim) : isObject st (.prim p) = false := rfl

theorem isObject_record (st : Store) (a : Nat) (f : List (String × Val))
    (h : st.lookup a = some (.record f)) : isObject st (.ref a) = true := by
  simp [isObject, h]

theorem isObject_date (st : Store) (a : Nat) (ms : Int) (f : List (String × Val))
    (h : st.lookup a = some (.date ms f)) : isObject st (.ref a) = true := by
  simp [isObject, h]

theorem isObject_arr (st : Store) (a : Nat) (l : List Val)
    (h : st.lookup a = some (.arr l)) : isObject st (.ref a) = false := by
  simp [isObject, h]

theorem isObject_dangling (st : Store) (a : Nat)
    (h : st.lookup a = none) : isObject st (.ref a) = false := by
  simp [isObject, h]

theorem objFields_record (st : Store) (a : Nat) (f : List (String × Val))
    (h : st.lookup a = some (.record f)) : objFields st (.ref a) = f := by
  simp [objFields, h]

theorem objFields_date (st : Store) (a : Nat) (ms : Int) (f : List (String × Val))
    (h : st.lookup a = some (.date ms f)) : objFields st (.ref a) = f := by
  simp [objFields, h]

theorem getField_record (st : Store) (a : Nat) (f : List (String × Val)) (k : String)
    (h : st.lookup a = some (.record f)) :
    getField st (.ref a) k = (getF f k).getD (.prim .vundef) := by
  simp [getField, objFields, h]

theorem assignField_record (st : Store) (a : Nat) (f : List (String × Val))
    (k : String) (w : Val) (h : st.lookup a = some (.record f)) :
    assignField st (.ref a) k w = st.update a (.record (setF f k w)) := by
  simp [assignField, h]

theorem objKeys_record (st : Store) (a : Nat) (f : List (String × Val))
    (h : st.lookup a = some (.record f)) : objKeys st (.ref a) = f.map Prod.fst := by
  simp [objKeys, objFields, h]

theorem isObject_update_record (st : Store) (a : Nat) (f g : List (String × Val))
    (ha : st.lookup a = some (.record f)) (w : Val) :
    isObject (st.update a (.record g)) w = isObject st w := by
  cases w with
  | prim p => rfl
  | ref b =>
    by_cases h : b = a
    · subst h
      simp [isObject, Store.lookup_update, ha]
    · simp [isObject, Store.lookup_update, h]

-- Definitional equation lemmas, used to unfold one evaluation step at a
-- time without opening the recursive occurrences hidden in lambdas.

theorem deepMerge_zero (st : Store) (t : Val) (srcs : List Val) :
    deepMerge 0 st t srcs = none := rfl

theorem deepMerge_nil (fuel : Nat) (st : Store) (t : Val) :
    deepMerge (fuel + 1) st t [] = some (st, t) := rfl

theorem deepMerge_cons (fuel : Nat) (st : Store) (target source : Val)
    (rest : List Val) :
    deepMerge (fuel + 1) st target (source :: rest) =
      (if source = Val.prim Prim.vundef then some (st, target)
      else
        match
          (if isObject st target && isObject st source then
            mergeKeys (fun s x y => (deepMerge fuel s x [y]).map Prod.fst)
              target source st (objKeys st source)
          else some st)
        with
        | none => none
        | some st1 => deepMerge fuel st1 target rest) := rfl

theorem mergeKeys_nil (dm : Store → Val → Val → Option Store)
    (target source : Val) (st : Store) :
    mergeKeys dm target source st [] = some st := rfl

theorem mergeKeys_cons (dm : Store → Val → Val → Option Store)
    (target source : Val) (st : Store) (k : String) (ks : List String) :
    mergeKeys dm target source st (k :: ks) =
      (if isObject st (getField st source k) then
        match
          dm (if truthy (getField st target k) then st
              else assignField (st.alloc (.record [])).1 target k (.ref st.next))
            (getField (if truthy (getField st target k) then st
              else assignField (st.alloc (.record [])).1 target k (.ref st.next))
              target k)
            (getField (if truthy (getField st target k) then st
              else assignField (st.alloc (.record [])).1 target k (.ref st.next))
              source k)
        with
        | none => none
        | some st2 => mergeKeys dm target source st2 ks
      else
        mergeKeys dm target source (assignField st target k (getField st source k)) ks) := rfl

-- deepMerge returns the very target value it was given.

theorem deepMerge_val_eq_target (fuel : Nat) (st : Store) (t : Val)
    (srcs : List Val) (st' : Store) (v : Val)
    (h : deepMerge fuel st t srcs = some (st', v)) : v = t := by
  induction fuel generalizing st srcs with
  | zero => simp [deepMerge] at h
  | succ fuel ih =>
    cases srcs with
    | nil =>
      simp only [deepMerge, Option.some.injEq, Prod.mk.injEq] at h
      exact h.2.symm
    | cons source rest =>
      simp only [deepMerge] at h
      by_cases hu : source = Val.prim Prim.vundef
      · rw [if_pos hu] at h
        simp only [Option.some.injEq, Prod.mk.injEq] at h
        exact h.2.symm
      · rw [if_neg hu] at h
        split at h
        · simp at h
        · exact ih _ _ h

/-- C10: deepMerge mutates its target in place and returns the very value
passed as target — every successful run returns the target value itself,
never a freshly allocated result — and with zero sources the target and
the whole store are returned unchanged. -/
theorem claim_C10_merge_returns_target :
    (∀ fuel st t srcs st' v, deepMerge fuel st t srcs = some (st', v) → v = t) ∧
    (∀ fuel st t, deepMerge (fuel + 1) st t [] = some (st, t)) :=
  ⟨deepMerge_val_eq_target, fun _ _ _ => rfl⟩

/-- Witness for C10 on a one-record store. -/
theorem claim_C10_merge_returns_target_witness :
    deepMerge 1 ⟨[(0, Obj.record [])], 1⟩ (.ref 0) [] =
      some (⟨[(0, Obj.record [])], 1⟩, .ref 0) ∧ (Val.ref 0 = Val.ref 0) :=
  ⟨claim_C10_merge_returns_target.2 0 ⟨[(0, Obj.record [])], 1⟩ (.ref 0),
   claim_C10_merge_returns_target.1 1 ⟨[(0, Obj.record [])], 1⟩ (.ref 0) []
     ⟨[(0, Obj.record [])], 1⟩ (.ref 0)
     (claim_C10_merge_returns_target.2 0 ⟨[(0, Obj.record [])], 1⟩ (.ref 0)) ▸ rfl⟩

theorem mergeKeys_single_flat (dm : Store → Val → Val → Option Store)
    (st : Store) (target source : Val) (k : String) (v : Val)
    (hget : getField st source k = v) (hv : isObject st v = false) :
    mergeKeys dm target source st [k] = some (assignField st target k v) := by
  simp only [mergeKeys, hget, hv]
  rw [if_neg (by simp [hv])]

/-- C6: deepMerge processes its sources left to right against the
accumulating target, so on a key conflict the later source wins: merging
two single-key sources into a record target stores the second source's
value (here for conflicting values that are not isObject, the shape in the
spec's own example `merge({}, {a:1}, {a:2}) = {a:2}`). -/
theorem claim_C6_multi_source_precedence (fuel : Nat) (st : Store)
    (ta sa1 sa2 : Nat) (tf : List (String × Val)) (k : String) (v1 v2 : Val)
    (hta : st.lookup ta = some (.record tf))
    (hs1 : st.lookup sa1 = some (.record [(k, v1)]))
    (hs2 : st.lookup sa2 = some (.record [(k, v2)]))
    (h1 : isObject st v1 = false) (h2 : isObject st v2 = false)
    (hne2 : ta ≠ sa2) :
    ∃ st', deepMerge (fuel + 3) st (.ref ta) [.ref sa1, .ref sa2] =
        some (st', .ref ta) ∧ getField st' (.ref ta) k = v2 := by
  have hne2' : ¬(sa2 = ta) := fun e => hne2 e.symm
  have hobj1 : (isObject st (.ref ta) && isObject st (.ref sa1)) = true := by
    rw [isObject_record st ta tf hta, isObject_record st sa1 _ hs1]
    rfl
  have hkeys1 : objKeys st (.ref sa1) = [k] := by
    rw [objKeys_record st sa1 _ hs1]
    rfl
  have hget1 : getField st (.ref sa1) k = v1 := by
    rw [getField_record st sa1 _ k hs1]
    simp [getF]
  have hassign1 : assignField st (.ref ta) k v1 =
      st.update ta (.record (setF tf k v1)) :=
    assignField_record st ta tf k v1 hta
  have hta1 : (st.update ta (.record (setF tf k v1))).lookup ta =
      some (.record (setF tf k v1)) := by
    rw [Store.lookup_update]
    simp [hta]
  have hs2' : (st.update ta (.record (setF tf k v1))).lookup sa2 =
      some (.record [(k, v2)]) := by
    rw [Store.lookup_update, if_neg hne2']
    exact hs2
  have hobj2 : (isObject (st.update ta (.record (setF tf k v1))) (.ref ta) &&
      isObject (st.update ta (.record (setF tf k v1))) (.ref sa2)) = true := by
    rw [isObject_record _ ta _ hta1, isObject_record _ sa2 _ hs2']
    rfl
  have hkeys2 : objKeys (st.update ta (.record (setF tf k v1))) (.ref sa2) = [k] := by
    rw [objKeys_record _ sa2 _ hs2']
    rfl
  have hget2 : getField (st.update ta (.record (setF tf k v1))) (.ref sa2) k = v2 := by
    rw [getField_record _ sa2 _ k hs2']
    simp [getF]
  have hv2 : isObject (st.update ta (.record (setF tf k v1))) v2 = false := by
    rw [isObject_update_record st ta tf _ hta v2]
    exact h2
  have hassign2 : assignField (st.update ta (.record (setF tf k v1))) (.ref ta) k v2 =
      (st.update ta (.record (setF tf k v1))).update ta
        (.record (setF (setF tf k v1) k v2)) :=
    assignField_record _ ta _ k v2 hta1
  refine ⟨(st.update ta (.record (setF tf k v1))).update ta
      (.record (setF (setF tf k v1) k v2)), ?_, ?_⟩
  · show deepMerge ((fuel + 2) + 1) st (.ref ta) [.ref sa1, .ref sa2] = _
    simp only [deepMerge]
    rw [if_neg (by simp), if_pos hobj1, hkeys1,
      mergeKeys_single_flat _ st (.ref ta) (.ref sa1) k v1 hget1 h1, hassign1]
    show deepMerge ((fuel + 1) + 1) (st.update ta (.record (setF tf k v1)))
      (.ref ta) [.ref sa2] = _
    simp only [deepMerge]
    rw [if_neg (by simp), if_pos hobj2, hkeys2,
      mergeKeys_single_flat _ _ (.ref ta) (.ref sa2) k v2 hget2 hv2, hassign2]
  · have : ((st.update ta (.record (setF tf k v1))).update ta
        (.record (setF (setF tf k v1) k v2))).lookup ta =
        some (.record (setF (setF tf k v1) k v2)) := by
      rw [Store.lookup_update]
      simp [hta1]
    rw [getField_record _ ta _ k this, getF_setF_self]
    rfl

/-- Witness for C6: merge({}, {a:1}, {a:2}) on an explicit store. -/
theorem claim_C6_multi_source_precedence_witness :
    ((⟨[(0, Obj.record []), (1, Obj.record [("a", Val.prim (Prim.vnum 1))]),
        (2, Obj.record [("a", Val.prim (Prim.vnum 2))])], 3⟩ : Store).lookup 0 =
      some (.record [])) ∧
    (∃ st', deepMerge 3
        ⟨[(0, Obj.record []), (1, Obj.record [("a", Val.prim (Prim.vnum 1))]),
          (2, Obj.record [("a", Val.prim (Prim.vnum 2))])], 3⟩
        (.ref 0) [.ref 1, .ref 2] = some (st', .ref 0) ∧
      getField st' (.ref 0) "a" = Val.prim (Prim.vnum 2)) :=
  ⟨by decide,
   claim_C6_multi_source_precedence 0
     ⟨[(0, Obj.record []), (1, Obj.record [("a", Val.prim (Prim.vnum 1))]),
       (2, Obj.record [("a", Val.prim (Prim.vnum 2))])], 3⟩
     0 1 2 [] "a" (Val.prim (Prim.vnum 1)) (Val.prim (Prim.vnum 2))
     (by decide) (by decide) (by decide) (by decide) (by decide)
     (by decide)⟩

/-- Counterexample to C1 as stated: with target {a: 5} and source
{a: {b: 1}}, the claim requires target.a to become a plain record holding
the merged contents of {b: 1}; the code's `!target[key]` test sees the
truthy number 5, skips the replacement, and the recursive call
deepMerge(5, {b:1}) does nothing, so the store is returned completely
unchanged and target.a is still the number 5 (not an object). -/
theorem claim_C1_counterexample :
    deepMerge 10
      ⟨[(0, Obj.record [("a", Val.prim (Prim.vnum 5))]),
        (1, Obj.record [("b", Val.prim (Prim.vnum 1))]),
        (2, Obj.record [("a", Val.ref 1)])], 3⟩ (.ref 0) [.ref 2] =
      some (⟨[(0, Obj.record [("a", Val.prim (Prim.vnum 5))]),
        (1, Obj.record [("b", Val.prim (Prim.vnum 1))]),
        (2, Obj.record [("a", Val.ref 1)])], 3⟩, .ref 0) ∧
    isObject
      ⟨[(0, Obj.record [("a", Val.prim (Prim.vnum 5))]),
        (1, Obj.record [("b", Val.prim (Prim.vnum 1))]),
        (2, Obj.record [("a", Val.ref 1)])], 3⟩
      (getField
        ⟨[(0, Obj.record [("a", Val.prim (Prim.vnum 5))]),
          (1, Obj.record [("b", Val.prim (Prim.vnum 1))]),
          (2, Obj.record [("a", Val.ref 1)])], 3⟩ (.ref 0) "a") = false := by
  constructor
  · rfl
  · rfl

/-- C1 amended: for a source entry `k` whose value passes the isObject
test, the target slot is replaced by a freshly allocated empty record
exactly when the current target value at `k` is falsy (absent, null,
undefined, false, 0 or the empty string) — not, as claimed, whenever it
has any shape other than plain record.  After the replacement the source
value is recursively merged into the fresh record (here the single-key
source {k: sv}) and the call returns the target itself. -/
theorem claim_C1_amended (fuel : Nat) (st : Store) (ta sa : Nat)
    (tf : List (String × Val)) (k : String) (sv : Val)
    (hws : WS st)
    (hta : st.lookup ta = some (.record tf))
    (hsa : st.lookup sa = some (.record [(k, sv)]))
    (hobj : isObject st sv = true)
    (hfalsy : truthy ((getF tf k).getD (.prim .vundef)) = false)
    (hne : ta ≠ sa) :
    deepMerge (fuel + 2) st (.ref ta) [.ref sa] =
      (deepMerge (fuel + 1)
          (assignField (st.alloc (.record [])).1 (.ref ta) k (.ref st.next))
          (.ref st.next) [sv]).map (fun p => (p.1, .ref ta)) ∧
    getField (assignField (st.alloc (.record [])).1 (.ref ta) k (.ref st.next))
        (.ref ta) k = .ref st.next := by
  have hlt : ta < st.next := Store.lookup_lt_next st ta _ hws hta
  have hslt : sa < st.next := Store.lookup_lt_next st sa _ hws hsa
  have hta_alloc : (st.alloc (.record [])).1.lookup ta = some (.record tf) := by
    rw [Store.lookup_alloc, if_neg (Nat.ne_of_lt hlt)]
    exact hta
  have hsa_alloc : (st.alloc (.record [])).1.lookup sa = some (.record [(k, sv)]) := by
    rw [Store.lookup_alloc, if_neg (Nat.ne_of_lt hslt)]
    exact hsa
  have hassign : assignField (st.alloc (.record [])).1 (.ref ta) k (.ref st.next) =
      (st.alloc (.record [])).1.update ta (.record (setF tf k (.ref st.next))) :=
    assignField_record _ ta tf k _ hta_alloc
  have hta1 : (assignField (st.alloc (.record [])).1 (.ref ta) k
      (.ref st.next)).lookup ta = some (.record (setF tf k (.ref st.next))) := by
    rw [hassign, Store.lookup_update]
    simp [hta_alloc]
  have hsa1 : (assignField (st.alloc (.record [])).1 (.ref ta) k
      (.ref st.next)).lookup sa = some (.record [(k, sv)]) := by
    rw [hassign, Store.lookup_update, if_neg (fun e => hne e.symm)]
    exact hsa_alloc
  have hget_t1 : getField (assignField (st.alloc (.record [])).1 (.ref ta) k
      (.ref st.next)) (.ref ta) k = .ref st.next := by
    rw [getField_record _ ta _ k hta1, getF_setF_self]
    rfl
  have hget_s1 : getField (assignField (st.alloc (.record [])).1 (.ref ta) k
      (.ref st.next)) (.ref sa) k = sv := by
    rw [getField_record _ sa _ k hsa1]
    simp [getF]
  refine ⟨?_, hget_t1⟩
  have hobjpair : (isObject st (.ref ta) && isObject st (.ref sa)) = true := by
    rw [isObject_record st ta tf hta, isObject_record st sa _ hsa]
    rfl
  have hkeys : objKeys st (.ref sa) = [k] := by
    rw [objKeys_record st sa _ hsa]
    rfl
  have hget_s : getField st (.ref sa) k = sv := by
    rw [getField_record st sa _ k hsa]
    simp [getF]
  have htruthy : truthy (getField st (.ref ta) k) = false := by
    rw [getField_record st ta tf k hta]
    exact hfalsy
  have hcond : isObject st (getField st (.ref sa) k) = true := by
    rw [hget_s]
    exact hobj
  have hntruthy : ¬(truthy (getField st (.ref ta) k) = true) := by
    rw [htruthy]
    simp
  rw [show fuel + 2 = (fuel + 1) + 1 from rfl, deepMerge_cons,
    if_neg (show ¬(Val.ref sa = Val.prim Prim.vundef) by simp),
    if_pos hobjpair, hkeys, mergeKeys_cons, if_pos hcond, if_neg hntruthy,
    hget_t1, hget_s1]
  simp only [mergeKeys_nil, deepMerge_nil]
  cases hinner : deepMerge (fuel + 1)
      (assignField (st.alloc (Obj.record [])).1 (.ref ta) k (.ref st.next))
      (.ref st.next) [sv] with
  | none => rfl
  | some p => rfl

/-- Witness for the amended C1: merging {a: {b: 1}} into the empty record. -/
theorem claim_C1_amended_witness :
    WS ⟨[(0, Obj.record []), (1, Obj.record [("b", Val.prim (Prim.vnum 1))]),
        (2, Obj.record [("a", Val.ref 1)])], 3⟩ ∧
    (deepMerge 2
        ⟨[(0, Obj.record []), (1, Obj.record [("b", Val.prim (Prim.vnum 1))]),
          (2, Obj.record [("a", Val.ref 1)])], 3⟩ (.ref 0) [.ref 2] =
      (deepMerge 1
          (assignField ((⟨[(0, Obj.record []),
              (1, Obj.record [("b", Val.prim (Prim.vnum 1))]),
              (2, Obj.record [("a", Val.ref 1)])], 3⟩ : Store).alloc
            (.record [])).1 (.ref 0) "a" (.ref 3))
          (.ref 3) [Val.ref 1]).map (fun p => (p.1, .ref 0)) ∧
      getField (assignField ((⟨[(0, Obj.record []),
          (1, Obj.record [("b", Val.prim (Prim.vnum 1))]),
          (2, Obj.record [("a", Val.ref 1)])], 3⟩ : Store).alloc
            (.record [])).1 (.ref 0) "a" (.ref 3)) (.ref 0) "a" = .ref 3) :=
  ⟨by decide,
   claim_C1_amended 0
     ⟨[(0, Obj.record []), (1, Obj.record [("b", Val.prim (Prim.vnum 1))]),
       (2, Obj.record [("a", Val.ref 1)])], 3⟩
     0 2 [] "a" (Val.ref 1) (by decide) (by decide) (by decide) (by decide)
     (by decide) (by decide)⟩

/-- Counterexample to C2 as stated: a date-like source value does NOT take
the direct-overwrite branch, because the code's isObject test counts a
Date as an object.  With target {} and source {a: d} where d is a date
object, the claim requires target.a to become d itself (shared by
reference); the code instead allocates a fresh empty record at address 3,
stores it in target.a, and merges the date's (empty) key set into it, so
target.a is the new empty record, not the date. -/
theorem claim_C2_counterexample :
    deepMerge 10
      ⟨[(0, Obj.record []), (1, Obj.date 0 []), (2, Obj.record [("a", Val.ref 1)])],
        3⟩ (.ref 0) [.ref 2] =
      some (⟨[(3, Obj.record []), (0, Obj.record [("a", Val.ref 3)]),
        (1, Obj.date 0 []), (2, Obj.record [("a", Val.ref 1)])], 4⟩, .ref 0) ∧
    getField
      ⟨[(3, Obj.record []), (0, Obj.record [("a", Val.ref 3)]),
        (1, Obj.date 0 []), (2, Obj.record [("a", Val.ref 1)])], 4⟩
      (.ref 0) "a" ≠
    getField
      ⟨[(0, Obj.record []), (1, Obj.date 0 []), (2, Obj.record [("a", Val.ref 1)])],
        3⟩ (.ref 2) "a" := by
  constructor
  · rfl
  · decide

/-- C2 amended: for a source entry `k` whose value fails the isObject test
— a primitive or a list, but NOT a date-like value, which the code treats
as an object — merging the single-key source {k: sv} performs exactly
`target[k] = sv`: the very source value (hence shared by reference when it
is a list) is stored in the target, whatever the target previously held,
and the call returns the target itself. -/
theorem claim_C2_amended (fuel : Nat) (st : Store) (ta sa : Nat)
    (tf : List (String × Val)) (k : String) (sv : Val)
    (hta : st.lookup ta = some (.record tf))
    (hsa : st.lookup sa = some (.record [(k, sv)]))
    (hnobj : isObject st sv = false) :
    deepMerge (fuel + 2) st (.ref ta) [.ref sa] =
      some (assignField st (.ref ta) k sv, .ref ta) ∧
    getField (assignField st (.ref ta) k sv) (.ref ta) k = sv := by
  have hobjpair : (isObject st (.ref ta) && isObject st (.ref sa)) = true := by
    rw [isObject_record st ta tf hta, isObject_record st sa _ hsa]
    rfl
  have hkeys : objKeys st (.ref sa) = [k] := by
    rw [objKeys_record st sa _ hsa]
    rfl
  have hget_s : getField st (.ref sa) k = sv := by
    rw [getField_record st sa _ k hsa]
    simp [getF]
  have hncond : ¬(isObject st (getField st (.ref sa) k) = true) := by
    rw [hget_s, hnobj]
    simp
  constructor
  · rw [show fuel + 2 = (fuel + 1) + 1 from rfl, deepMerge_cons,
      if_neg (show ¬(Val.ref sa = Val.prim Prim.vundef) by simp),
      if_pos hobjpair, hkeys, mergeKeys_cons, if_neg hncond, hget_s,
      mergeKeys_nil]
    rfl
  · have hassign : assignField st (.ref ta) k sv =
        st.update ta (.record (setF tf k sv)) := assignField_record st ta tf k sv hta
    have hta1 : (assignField st (.ref ta) k sv).lookup ta =
        some (.record (setF tf k sv)) := by
      rw [hassign, Store.lookup_update]
      simp [hta]
    rw [getField_record _ ta _ k hta1, getF_setF_self]
    rfl

/-- Witness for the amended C2: merging the flat source {a: 1} into {}. -/
theorem claim_C2_amended_witness :
    (deepMerge 2 ⟨[(0, Obj.record []), (1, Obj.record [("a", Val.prim (Prim.vnum 1))])], 2⟩
        (.ref 0) [.ref 1] =
      some (assignField ⟨[(0, Obj.record []),
          (1, Obj.record [("a", Val.prim (Prim.vnum 1))])], 2⟩
        (.ref 0) "a" (Val.prim (Prim.vnum 1)), .ref 0)) ∧
    getField (assignField ⟨[(0, Obj.record []),
        (1, Obj.record [("a", Val.prim (Prim.vnum 1))])], 2⟩
      (.ref 0) "a" (Val.prim (Prim.vnum 1))) (.ref 0) "a" = Val.prim (Prim.vnum 1) :=
  claim_C2_amended 0
    ⟨[(0, Obj.record []), (1, Obj.record [("a", Val.prim (Prim.vnum 1))])], 2⟩
    0 1 [] "a" (Val.prim (Prim.vnum 1)) (by decide) (by decide) (by decide)

theorem flattenObject_succ (fuel : Nat) (st : Store) (v : Val) (pfx : String) :
    flattenObject (fuel + 1) st v pfx =
      flattenFields (flattenObject fuel) st pfx (objFields st v) [] := rfl

theorem flattenFields_nil
    (fl : Store → Val → String → Option (List (String × Val)))
    (st : Store) (pfx : String) (acc : List (String × Val)) :
    flattenFields fl st pfx [] acc = some acc := rfl

theorem flattenFields_cons
    (fl : Store → Val → String → Option (List (String × Val)))
    (st : Store) (pfx : String) (k : String) (v : Val)
    (rest acc : List (String × Val)) :
    flattenFields fl st pfx ((k, v) :: rest) acc =
      (if isObject st v then
        match fl st v ((if pfx = "" then "" else pfx ++ ".") ++ k) with
        | none => none
        | some inner =>
          flattenFields fl st pfx rest (inner.foldl (fun a p => setF a p.1 p.2) acc)
      else
        flattenFields fl st pfx rest
          (setF acc ((if pfx = "" then "" else pfx ++ ".") ++ k) v)) := rfl

/-- Counterexample to C3 as stated: a date-like value is NOT treated as a
leaf.  Flattening {a: d} where d is a date object yields the empty record
— the code's object test accepts the date, recurses into it, finds no
enumerable keys, and the date disappears from the output — whereas the
claim requires the date to appear unchanged at path "a". -/
theorem claim_C3_counterexample :
    flattenObject 10 ⟨[(0, Obj.record [("a", Val.ref 1)]), (1, Obj.date 0 [])], 2⟩
      (.ref 0) "" = some [] ∧
    flattenObject 10 ⟨[(0, Obj.record [("a", Val.ref 1)]), (1, Obj.date 0 [])], 2⟩
      (.ref 0) "" ≠ some [("a", Val.ref 1)] := by
  constructor
  · rfl
  · decide

/-- C3 amended: flattenObject recurses into every value passing the
isObject test — plain records AND date-like values — and treats only other
values as leaves.  Lists are indeed leaves stored intact at their
dot-joined path (flatten {ka: {kb: list}} = {"ka.kb": list}, the list kept
by reference); a date-like value is recursed into as if it were a record,
and since it has no enumerable keys it vanishes from the output instead of
being stored at its path. -/
theorem claim_C3_amended :
    (∀ fuel (st : Store) (a b c : Nat) (l : List Val) (ka kb : String),
      ka ≠ "" →
      st.lookup a = some (.record [(ka, .ref b)]) →
      st.lookup b = some (.record [(kb, .ref c)]) →
      st.lookup c = some (.arr l) →
      flattenObject (fuel + 2) st (.ref a) "" =
        some [(ka ++ "." ++ kb, .ref c)]) ∧
    (∀ fuel (st : Store) (a d : Nat) (ms : Int) (ka : String),
      st.lookup a = some (.record [(ka, .ref d)]) →
      st.lookup d = some (.date ms []) →
      flattenObject (fuel + 2) st (.ref a) "" = some []) := by
  constructor
  · intro fuel st a b c l ka kb hka ha hb hc
    have hfa : objFields st (.ref a) = [(ka, .ref b)] := objFields_record _ _ _ ha
    have hfb : objFields st (.ref b) = [(kb, .ref c)] := objFields_record _ _ _ hb
    have hob : isObject st (.ref b) = true := isObject_record _ _ _ hb
    have hoc : ¬(isObject st (.ref c) = true) := by
      rw [isObject_arr _ _ _ hc]
      simp
    rw [show fuel + 2 = (fuel + 1) + 1 from rfl, flattenObject_succ, hfa,
      flattenFields_cons, if_pos hob, flattenObject_succ, hfb,
      flattenFields_cons, if_neg hoc]
    simp [hka, setF, flattenFields_nil]
  · intro fuel st a d ms ka ha hd
    have hfa : objFields st (.ref a) = [(ka, .ref d)] := objFields_record _ _ _ ha
    have hfd : objFields st (.ref d) = [] := objFields_date _ _ _ _ hd
    have hod : isObject st (.ref d) = true := isObject_date _ _ _ _ hd
    rw [show fuel + 2 = (fuel + 1) + 1 from rfl, flattenObject_succ, hfa,
      flattenFields_cons, if_pos hod, flattenObject_succ, hfd,
      flattenFields_nil]
    simp [flattenFields_nil]

/-- Witness for the amended C3: flatten({a: {b: [1,2,3]}}) = {"a.b": [1,2,3]}
and flatten({a: date}) = {}. -/
theorem claim_C3_amended_witness :
    flattenObject 2
      ⟨[(0, Obj.record [("a", Val.ref 1)]), (1, Obj.record [("b", Val.ref 2)]),
        (2, Obj.arr [Val.prim (Prim.vnum 1), Val.prim (Prim.vnum 2),
          Val.prim (Prim.vnum 3)])], 3⟩ (.ref 0) "" =
      some [("a" ++ "." ++ "b", Val.ref 2)] ∧
    flattenObject 2
      ⟨[(0, Obj.record [("a", Val.ref 1)]), (1, Obj.date 0 [])], 2⟩
      (.ref 0) "" = some [] :=
  ⟨claim_C3_amended.1 0
      ⟨[(0, Obj.record [("a", Val.ref 1)]), (1, Obj.record [("b", Val.ref 2)]),
        (2, Obj.arr [Val.prim (Prim.vnum 1), Val.prim (Prim.vnum 2),
          Val.prim (Prim.vnum 3)])], 3⟩ 0 1 2
      [Val.prim (Prim.vnum 1), Val.prim (Prim.vnum 2), Val.prim (Prim.vnum 3)]
      "a" "b" (by decide) (by decide) (by decide) (by decide),
   claim_C3_amended.2 0
      ⟨[(0, Obj.record [("a", Val.ref 1)]), (1, Obj.date 0 [])], 2⟩ 0 1 0 "a"
      (by decide) (by decide)⟩

-- Lemmas towards the deepClone claim.

theorem Store.lookup_mem (st : Store) (a : Nat) (o : Obj)
    (h : st.lookup a = some o) : (a, o) ∈ st.objs := by
  unfold Store.lookup at h
  cases hf : st.objs.find? (fun p => p.1 = a) with
  | none => rw [hf] at h; cases h
  | some p =>
    rw [hf] at h
    have hm := List.mem_of_find?_eq_some hf
    have hp : p.1 = a := by simpa using List.find?_some hf
    have ho : p.2 = o := by simpa using h
    have : p = (a, o) := by
      obtain ⟨p1, p2⟩ := p
      simp only at hp ho
      rw [hp, ho]
    exact this ▸ hm

theorem valRefLt_mono (m n : Nat) (v : Val) (hmn : m ≤ n)
    (h : valRefLt m v = true) : valRefLt n v = true := by
  cases v with
  | prim p => rfl
  | ref b =>
    simp only [valRefLt, decide_eq_true_eq] at h ⊢
    omega

theorem WS_alloc (st : Store) (o : Obj) (hws : WS st)
    (hvals : ∀ w ∈ objVals o, valRefLt (st.next + 1) w = true)
    (hnodup : ((objFieldsOf o).map Prod.fst).Nodup) :
    WS (st.alloc o).1 := by
  obtain ⟨h1, h2, h3, h4⟩ := hws
  refine ⟨?_, ?_, ?_, ?_⟩
  · intro p hp
    rcases List.mem_cons.mp hp with rfl | hp
    · exact Nat.lt_succ_self _
    · exact Nat.lt_succ_of_lt (h1 p hp)
  · refine List.nodup_cons.mpr ⟨?_, h2⟩
    intro hmem
    obtain ⟨p, hp, hpe⟩ := List.mem_map.mp hmem
    exact absurd (h1 p hp) (by rw [hpe]; exact Nat.lt_irrefl _)
  · intro p hp
    rcases List.mem_cons.mp hp with rfl | hp
    · exact hnodup
    · exact h3 p hp
  · intro p hp w hw
    rcases List.mem_cons.mp hp with rfl | hp
    · exact hvals w hw
    · exact valRefLt_mono st.next (st.next + 1) w (Nat.le_succ _) (h4 p hp w hw)

theorem FreshClosed_of_ws (st : Store) (hws : WS st) : FreshClosed st.next st := by
  intro a o hn hl
  exact absurd (Store.lookup_lt_next st a o hws hl) (Nat.not_lt.mpr hn)

theorem FreshClosed_alloc (n : Nat) (st : Store) (o : Obj)
    (hfc : FreshClosed n st)
    (hvals : ∀ w ∈ objVals o, ∀ b, w = Val.ref b → n ≤ b) :
    FreshClosed n (st.alloc o).1 := by
  intro a o' ha hl w hw b hb
  rw [Store.lookup_alloc] at hl
  by_cases he : a = st.next
  · rw [if_pos he] at hl
    cases hl
    exact hvals w hw b hb
  · rw [if_neg he] at hl
    exact hfc a o' ha hl w hw b hb

theorem FreshClosed_extend (n : Nat) (st1 st2 : Store)
    (h1 : FreshClosed n st1) (hn : n ≤ st1.next)
    (hpres : ∀ a, a < st1.next → st2.lookup a = st1.lookup a)
    (h2 : FreshClosed st1.next st2) :
    FreshClosed n st2 := by
  intro a o ha hl w hw b hb
  by_cases hlt : a < st1.next
  · rw [hpres a hlt] at hl
    exact h1 a o ha hl w hw b hb
  · exact le_trans hn (h2 a o (Nat.not_lt.mp hlt) hl w hw b hb)

theorem setF_append_of_not_mem (f : List (String × Val)) (k : String) (v : Val)
    (h : k ∉ f.map Prod.fst) : setF f k v = f ++ [(k, v)] := by
  induction f with
  | nil => rfl
  | cons p rest ih =>
    have hne : ¬(p.1 = k) := by
      intro e
      exact h (by simp [e])
    have hrest : k ∉ rest.map Prod.fst := fun hm => h (by simp [hm])
    obtain ⟨p1, p2⟩ := p
    simp only at hne
    simp [setF, hne, ih hrest]

theorem foldl_setF_append (rest acc : List (String × Val))
    (hdisj : ∀ k ∈ rest.map Prod.fst, k ∉ acc.map Prod.fst)
    (hnd : (rest.map Prod.fst).Nodup) :
    rest.foldl (fun a p => setF a p.1 p.2) acc = acc ++ rest := by
  induction rest generalizing acc with
  | nil => simp
  | cons p rest' ih =>
    simp only [List.foldl_cons]
    have hp : p.1 ∉ acc.map Prod.fst := hdisj p.1 (by simp)
    rw [setF_append_of_not_mem acc p.1 p.2 hp]
    simp only [List.map_cons, List.nodup_cons] at hnd
    rw [ih (acc ++ [p]) ?_ hnd.2]
    · simp
    · intro k hk
      rw [List.map_append]
      intro hmem
      rcases List.mem_append.mp hmem with hm | hm
      · exact hdisj k (by simp [hk]) hm
      · simp only [List.map_cons, List.map_nil, List.mem_singleton] at hm
        exact hnd.1 (hm ▸ hk)

theorem jsFromEntries_self (l : List (String × Val))
    (hnd : (l.map Prod.fst).Nodup) : jsFromEntries l = l := by
  unfold jsFromEntries
  rw [foldl_setF_append l [] (by simp) hnd]
  simp

theorem treeList_congr (tt tt' : Val → Option VTree) (l : List Val)
    (h : ∀ v ∈ l, tt v = tt' v) : treeList tt l = treeList tt' l := by
  induction l with
  | nil => rfl
  | cons v rest ih =>
    simp only [treeList, h v (by simp)]
    rw [ih (fun w hw => h w (List.mem_cons_of_mem _ hw))]

theorem treeFields_congr (tt tt' : Val → Option VTree)
    (l : List (String × Val)) (h : ∀ p ∈ l, tt p.2 = tt' p.2) :
    treeFields tt l = treeFields tt' l := by
  induction l with
  | nil => rfl
  | cons p rest ih =>
    obtain ⟨k, v⟩ := p
    simp only [treeFields, h (k, v) (by simp)]
    rw [ih (fun q hq => h q (List.mem_cons_of_mem _ hq))]

theorem toTree_zero (st : Store) (v : Val) : toTree 0 st v = none := rfl

theorem toTree_prim (fuel : Nat) (st : Store) (p : Prim) :
    toTree (fuel + 1) st (.prim p) = some (.prim p) := rfl

theorem toTree_ref_date (fuel : Nat) (st : Store) (a : Nat) (ms : Int)
    (f : List (String × Val)) (h : st.lookup a = some (.date ms f)) :
    toTree (fuel + 1) st (.ref a) = some (.date ms) := by
  simp [toTree, h]

theorem toTree_ref_arr (fuel : Nat) (st : Store) (a : Nat) (l : List Val)
    (h : st.lookup a = some (.arr l)) :
    toTree (fuel + 1) st (.ref a) = (treeList (toTree fuel st) l).map .arr := by
  simp [toTree, h]

theorem toTree_ref_record (fuel : Nat) (st : Store) (a : Nat)
    (f : List (String × Val)) (h : st.lookup a = some (.record f)) :
    toTree (fuel + 1) st (.ref a) = (treeFields (toTree fuel st) f).map .record := by
  simp [toTree, h]

theorem toTree_agree (n : Nat) (stA stB : Store)
    (hb : ∀ a, a < n → stB.lookup a = stA.lookup a)
    (hws : WS stA) (hn : stA.next ≤ n) :
    ∀ fuel v, valRefLt n v = true → toTree fuel stA v = toTree fuel stB v := by
  intro fuel
  induction fuel with
  | zero => intro v _; rfl
  | succ fuel ih =>
    intro v hv
    cases v with
    | prim p => rfl
    | ref a =>
      have ha : a < n := by simpa [valRefLt] using hv
      have hba : stB.lookup a = stA.lookup a := hb a ha
      cases hl : stA.lookup a with
      | none => simp [toTree, hl, hba]
      | some o =>
        have hbl : stB.lookup a = some o := by rw [hba, hl]
        cases o with
        | date ms f =>
          rw [toTree_ref_date fuel stA a ms f hl, toTree_ref_date fuel stB a ms f hbl]
        | arr l =>
          have hm := Store.lookup_mem stA a _ hl
          have hvals := hws.2.2.2 (a, .arr l) hm
          rw [toTree_ref_arr fuel stA a l hl, toTree_ref_arr fuel stB a l hbl,
            treeList_congr (toTree fuel stA) (toTree fuel stB) l
              (fun w hw => ih w (valRefLt_mono stA.next n w hn (hvals w hw)))]
        | record f =>
          have hm := Store.lookup_mem stA a _ hl
          have hvals := hws.2.2.2 (a, .record f) hm
          rw [toTree_ref_record fuel stA a f hl, toTree_ref_record fuel stB a f hbl,
            treeFields_congr (toTree fuel stA) (toTree fuel stB) f
              (fun q hq => ih q.2 (valRefLt_mono stA.next n q.2 hn
                (hvals q.2 (List.mem_map_of_mem Prod.snd hq))))]

theorem cloneList_nil (cl : Store → Val → Option (Store × Val)) (st : Store) :
    cloneList cl st [] = some (st, []) := rfl

theorem cloneList_cons (cl : Store → Val → Option (Store × Val)) (st : Store)
    (v : Val) (rest : List Val) :
    cloneList cl st (v :: rest) =
      (match cl st v with
      | none => none
      | some (st1, v1) =>
        match cloneList cl st1 rest with
        | none => none
        | some (st2, rest1) => some (st2, v1 :: rest1)) := rfl

theorem cloneFields_nil (cl : Store → Val → Option (Store × Val)) (st : Store) :
    cloneFields cl st [] = some (st, []) := rfl

theorem cloneFields_cons (cl : Store → Val → Option (Store × Val)) (st : Store)
    (k : String) (v : Val) (rest : List (String × Val)) :
    cloneFields cl st ((k, v) :: rest) =
      (match cl st v with
      | none => none
      | some (st1, v1) =>
        match cloneFields cl st1 rest with
        | none => none
        | some (st2, rest1) => some (st2, (k, v1) :: rest1)) := rfl

theorem cloneList_spec (cl : Store → Val → Option (Store × Val)) (tfuel : Nat)
    (hcl : CloneSpec cl tfuel) :
    ∀ (l : List Val) (st st' : Store) (l' : List Val),
      WS st → (∀ w ∈ l, valRefLt st.next w = true) →
      cloneList cl st l = some (st', l') →
      st.next ≤ st'.next ∧
      (∀ a, a < st.next → st'.lookup a = st.lookup a) ∧
      WS st' ∧
      FreshClosed st.next st' ∧
      (∀ w ∈ l', (∃ p, w = Val.prim p) ∨
        ∃ b, w = Val.ref b ∧ st.next ≤ b ∧ b < st'.next) ∧
      (∃ trs, treeList (toTree tfuel st) l = some trs ∧
        treeList (toTree tfuel st') l' = some trs) := by
  intro l
  induction l with
  | nil =>
    intro st st' l' hws hvals h
    rw [cloneList_nil] at h
    obtain ⟨rfl, rfl⟩ : st = st' ∧ [] = l' := by
      constructor <;> [exact congrArg Prod.fst (Option.some.inj h);
        exact congrArg Prod.snd (Option.some.inj h)]
    exact ⟨le_refl _, fun a _ => rfl, hws, FreshClosed_of_ws st hws,
      by simp, ⟨[], rfl, rfl⟩⟩
  | cons v rest ih =>
    intro st st' l' hws hvals h
    rw [cloneList_cons] at h
    cases hv : cl st v with
    | none =>
      rw [hv] at h
      cases (show (none : Option (Store × List Val)) = some (st', l') from h)
    | some p =>
      obtain ⟨st1, v1⟩ := p
      rw [hv] at h
      replace h : (match cloneList cl st1 rest with
          | none => none
          | some (st2, rest1) => some (st2, v1 :: rest1)) = some (st', l') := h
      cases hrest : cloneList cl st1 rest with
      | none =>
        rw [hrest] at h
        cases (show (none : Option (Store × List Val)) = some (st', l') from h)
      | some q =>
        obtain ⟨st2, rest1⟩ := q
        rw [hrest] at h
        replace h : some (st2, v1 :: rest1) = some (st', l') := h
        obtain ⟨he1, he2⟩ : st2 = st' ∧ v1 :: rest1 = l' := by
          have h2 := Option.some.inj h
          exact ⟨congrArg Prod.fst h2, congrArg Prod.snd h2⟩
        rw [← he1, ← he2]
        obtain ⟨c1, c2, c3, c4, c5, tr, ctr1, ctr2⟩ := hcl st v st1 v1 hws hv
        obtain ⟨d1, d2, d3, d4, d5, trs, dtr1, dtr2⟩ :=
          ih st1 st2 rest1 c3
            (fun w hw => valRefLt_mono st.next st1.next w c1
              (hvals w (List.mem_cons_of_mem _ hw))) hrest
        have hv1lt : valRefLt st1.next v1 = true := by
          rcases c5 with ⟨p, hvp, hv1p⟩ | ⟨b0, b, hb0, hv1b, hb1, hb2⟩
          · rw [hv1p, hvp]
            rfl
          · rw [hv1b]
            simpa [valRefLt] using hb2
        refine ⟨le_trans c1 d1, ?_, d3, ?_, ?_, ?_⟩
        · intro a ha
          rw [d2 a (lt_of_lt_of_le ha c1), c2 a ha]
        · exact FreshClosed_extend st.next st1 st2 c4 c1 d2 d4
        · intro w hw
          rcases List.mem_cons.mp hw with rfl | hw
          · rcases c5 with ⟨p, hvp, hv1p⟩ | ⟨b0, b, hb0, hv1b, hb1, hb2⟩
            · exact Or.inl ⟨p, by rw [hv1p, hvp]⟩
            · exact Or.inr ⟨b, hv1b, hb1, lt_of_lt_of_le hb2 d1⟩
          · rcases d5 w hw with hp | ⟨b, hwb, hb1, hb2⟩
            · exact Or.inl hp
            · exact Or.inr ⟨b, hwb, le_trans c1 hb1, hb2⟩
        · have hrest_st : treeList (toTree tfuel st) rest =
              treeList (toTree tfuel st1) rest :=
            treeList_congr _ _ rest (fun w hw =>
              toTree_agree st.next st st1 c2 hws (le_refl _) tfuel w
                (hvals w (List.mem_cons_of_mem _ hw)))
          have hv1_st2 : toTree tfuel st2 v1 = some tr := by
            rw [← toTree_agree st1.next st1 st2 d2 c3 (le_refl _) tfuel v1 hv1lt]
            exact ctr2
          refine ⟨tr :: trs, ?_, ?_⟩
          · simp [treeList, ctr1, hrest_st ▸ dtr1]
          · simp [treeList, hv1_st2, dtr2]

theorem cloneFields_spec (cl : Store → Val → Option (Store × Val)) (tfuel : Nat)
    (hcl : CloneSpec cl tfuel) :
    ∀ (l : List (String × Val)) (st st' : Store) (l' : List (String × Val)),
      WS st → (∀ q ∈ l, valRefLt st.next q.2 = true) →
      cloneFields cl st l = some (st', l') →
      st.next ≤ st'.next ∧
      (∀ a, a < st.next → st'.lookup a = st.lookup a) ∧
      WS st' ∧
      FreshClosed st.next st' ∧
      l'.map Prod.fst = l.map Prod.fst ∧
      (∀ q ∈ l', (∃ p, q.2 = Val.prim p) ∨
        ∃ b, q.2 = Val.ref b ∧ st.next ≤ b ∧ b < st'.next) ∧
      (∃ trs, treeFields (toTree tfuel st) l = some trs ∧
        treeFields (toTree tfuel st') l' = some trs) := by
  intro l
  induction l with
  | nil =>
    intro st st' l' hws hvals h
    rw [cloneFields_nil] at h
    obtain ⟨he1, he2⟩ : st = st' ∧ ([] : List (String × Val)) = l' := by
      have h2 := Option.some.inj h
      exact ⟨congrArg Prod.fst h2, congrArg Prod.snd h2⟩
    rw [← he1, ← he2]
    exact ⟨le_refl _, fun a _ => rfl, hws, FreshClosed_of_ws st hws,
      rfl, by simp, ⟨[], rfl, rfl⟩⟩
  | cons q rest ih =>
    obtain ⟨k, v⟩ := q
    intro st st' l' hws hvals h
    rw [cloneFields_cons] at h
    cases hv : cl st v with
    | none =>
      rw [hv] at h
      cases (show (none : Option (Store × List (String × Val))) = some (st', l') from h)
    | some p =>
      obtain ⟨st1, v1⟩ := p
      rw [hv] at h
      replace h : (match cloneFields cl st1 rest with
          | none => none
          | some (st2, rest1) => some (st2, (k, v1) :: rest1)) = some (st', l') := h
      cases hrest : cloneFields cl st1 rest with
      | none =>
        rw [hrest] at h
        cases (show (none : Option (Store × List (String × Val))) = some (st', l') from h)
      | some q2 =>
        obtain ⟨st2, rest1⟩ := q2
        rw [hrest] at h
        replace h : some (st2, (k, v1) :: rest1) = some (st', l') := h
        obtain ⟨he1, he2⟩ : st2 = st' ∧ (k, v1) :: rest1 = l' := by
          have h2 := Option.some.inj h
          exact ⟨congrArg Prod.fst h2, congrArg Prod.snd h2⟩
        rw [← he1, ← he2]
        obtain ⟨c1, c2, c3, c4, c5, tr, ctr1, ctr2⟩ := hcl st v st1 v1 hws hv
        obtain ⟨d1, d2, d3, d4, d5, d6, trs, dtr1, dtr2⟩ :=
          ih st1 st2 rest1 c3
            (fun q hq => valRefLt_mono st.next st1.next q.2 c1
              (hvals q (List.mem_cons_of_mem _ hq))) hrest
        have hv1lt : valRefLt st1.next v1 = true := by
          rcases c5 with ⟨p, hvp, hv1p⟩ | ⟨b0, b, hb0, hv1b, hb1, hb2⟩
          · rw [hv1p, hvp]
            rfl
          · rw [hv1b]
            simpa [valRefLt] using hb2
        refine ⟨le_trans c1 d1, ?_, d3, ?_, ?_, ?_, ?_⟩
        · intro a ha
          rw [d2 a (lt_of_lt_of_le ha c1), c2 a ha]
        · exact FreshClosed_extend st.next st1 st2 c4 c1 d2 d4
        · simp [d5]
        · intro q hq
          rcases List.mem_cons.mp hq with rfl | hq
          · rcases c5 with ⟨p, hvp, hv1p⟩ | ⟨b0, b, hb0, hv1b, hb1, hb2⟩
            · exact Or.inl ⟨p, by simp only; rw [hv1p, hvp]⟩
            · exact Or.inr ⟨b, hv1b, hb1, lt_of_lt_of_le hb2 d1⟩
          · rcases d6 q hq with hp | ⟨b, hwb, hb1, hb2⟩
            · exact Or.inl hp
            · exact Or.inr ⟨b, hwb, le_trans c1 hb1, hb2⟩
        · have hrest_st : treeFields (toTree tfuel st) rest =
              treeFields (toTree tfuel st1) rest :=
            treeFields_congr _ _ rest (fun q hq =>
              toTree_agree st.next st st1 c2 hws (le_refl _) tfuel q.2
                (hvals q (List.mem_cons_of_mem _ hq)))
          have hv1_st2 : toTree tfuel st2 v1 = some tr := by
            rw [← toTree_agree st1.next st1 st2 d2 c3 (le_refl _) tfuel v1 hv1lt]
            exact ctr2
          refine ⟨(k, tr) :: trs, ?_, ?_⟩
          · simp [treeFields, ctr1, hrest_st ▸ dtr1]
          · simp [treeFields, hv1_st2, dtr2]

theorem deepClone_zero (st : Store) (v : Val) : deepClone 0 st v = none := rfl

theorem deepClone_succ_prim (fuel : Nat) (st : Store) (p : Prim) :
    deepClone (fuel + 1) st (.prim p) = some (st, .prim p) := rfl

theorem deepClone_succ_ref (fuel : Nat) (st : Store) (a : Nat) :
    deepClone (fuel + 1) st (.ref a) =
      (match st.lookup a with
      | none => none
      | some (.date ms _) => some ((st.alloc (.date ms [])).1, .ref st.next)
      | some (.arr elems) =>
        match cloneList (deepClone fuel) st elems with
        | none => none
        | some (st1, elems1) =>
          some ((st1.alloc (.arr elems1)).1, .ref st1.next)
      | some (.record f) =>
        match cloneFields (deepClone fuel) st f with
        | none => none
        | some (st1, f1) =>
          some ((st1.alloc (.record (jsFromEntries f1))).1, .ref st1.next)) := rfl

theorem deepClone_spec : ∀ fuel, CloneSpec (deepClone fuel) fuel := by
  intro fuel
  induction fuel with
  | zero =>
    intro st v st' v' hws h
    cases (show (none : Option (Store × Val)) = some (st', v') from h)
  | succ fuel ih =>
    intro st v st' v' hws h
    cases v with
    | prim p =>
      replace h : some (st, Val.prim p) = some (st', v') := h
      obtain ⟨he1, he2⟩ : st = st' ∧ Val.prim p = v' := by
        have h2 := Option.some.inj h
        exact ⟨congrArg Prod.fst h2, congrArg Prod.snd h2⟩
      rw [← he1, ← he2]
      exact ⟨le_refl _, fun a _ => rfl, hws, FreshClosed_of_ws st hws,
        Or.inl ⟨p, rfl, rfl⟩, ⟨.prim p, rfl, rfl⟩⟩
    | ref a =>
      rw [deepClone_succ_ref] at h
      cases hl : st.lookup a with
      | none =>
        rw [hl] at h
        cases (show (none : Option (Store × Val)) = some (st', v') from h)
      | some o =>
        rw [hl] at h
        cases o with
        | date ms f =>
          replace h : some ((st.alloc (Obj.date ms [])).1, Val.ref st.next) =
            some (st', v') := h
          obtain ⟨he1, he2⟩ : (st.alloc (Obj.date ms [])).1 = st' ∧
              Val.ref st.next = v' := by
            have h2 := Option.some.inj h
            exact ⟨congrArg Prod.fst h2, congrArg Prod.snd h2⟩
          rw [← he1, ← he2]
          have hpres : ∀ b, b < st.next →
              (st.alloc (Obj.date ms [])).1.lookup b = st.lookup b := by
            intro b hb
            rw [Store.lookup_alloc, if_neg (Nat.ne_of_lt hb)]
          have hself : (st.alloc (Obj.date ms [])).1.lookup st.next =
              some (Obj.date ms []) := by
            rw [Store.lookup_alloc, if_pos rfl]
          refine ⟨?_, hpres, ?_, ?_, ?_, ?_⟩
          · rw [Store.alloc_next]
            exact Nat.le_succ _
          · exact WS_alloc st _ hws (by simp [objVals]) (by simp [objFieldsOf])
          · exact FreshClosed_alloc st.next st _ (FreshClosed_of_ws st hws)
              (by simp [objVals])
          · refine Or.inr ⟨a, st.next, rfl, rfl, le_refl _, ?_⟩
            rw [Store.alloc_next]
            exact Nat.lt_succ_self _
          · exact ⟨.date ms, toTree_ref_date fuel st a ms f hl,
              toTree_ref_date fuel _ st.next ms [] hself⟩
        | arr elems =>
          have hm := Store.lookup_mem st a _ hl
          have hvals := hws.2.2.2 (a, .arr elems) hm
          replace h : (match cloneList (deepClone fuel) st elems with
              | none => none
              | some (st1, elems1) =>
                some ((st1.alloc (.arr elems1)).1, .ref st1.next)) =
              some (st', v') := h
          cases hcl : cloneList (deepClone fuel) st elems with
          | none =>
            rw [hcl] at h
            cases (show (none : Option (Store × Val)) = some (st', v') from h)
          | some q =>
            obtain ⟨st1, elems1⟩ := q
            rw [hcl] at h
            replace h : some ((st1.alloc (Obj.arr elems1)).1, Val.ref st1.next) =
              some (st', v') := h
            obtain ⟨he1, he2⟩ : (st1.alloc (Obj.arr elems1)).1 = st' ∧
                Val.ref st1.next = v' := by
              have h2 := Option.some.inj h
              exact ⟨congrArg Prod.fst h2, congrArg Prod.snd h2⟩
            rw [← he1, ← he2]
            obtain ⟨d1, d2, d3, d4, d5, trs, dtr1, dtr2⟩ :=
              cloneList_spec (deepClone fuel) fuel ih elems st st1 elems1 hws
                (fun w hw => hvals w hw) hcl
            have helemlt : ∀ w ∈ elems1, valRefLt st1.next w = true := by
              intro w hw
              rcases d5 w hw with ⟨p, rfl⟩ | ⟨b, rfl, hb1, hb2⟩
              · rfl
              · simpa [valRefLt] using hb2
            have hpres : ∀ b, b < st1.next →
                (st1.alloc (Obj.arr elems1)).1.lookup b = st1.lookup b := by
              intro b hb
              rw [Store.lookup_alloc, if_neg (Nat.ne_of_lt hb)]
            have hself : (st1.alloc (Obj.arr elems1)).1.lookup st1.next =
                some (Obj.arr elems1) := by
              rw [Store.lookup_alloc, if_pos rfl]
            refine ⟨?_, ?_, ?_, ?_, ?_, ?_⟩
            · rw [Store.alloc_next]
              exact le_trans d1 (Nat.le_succ _)
            · intro b hb
              rw [hpres b (lt_of_lt_of_le hb d1), d2 b hb]
            · exact WS_alloc st1 _ d3
                (fun w hw => valRefLt_mono st1.next (st1.next + 1) w
                  (Nat.le_succ _) (helemlt w hw))
                (by simp [objFieldsOf])
            · refine FreshClosed_alloc st.next st1 _ d4 ?_
              intro w hw b hb
              rcases d5 w hw with ⟨p, hp⟩ | ⟨b', hb', hb1, hb2⟩
              · rw [hp] at hb
                cases hb
              · rw [hb'] at hb
                cases hb
                exact hb1
            · refine Or.inr ⟨a, st1.next, rfl, rfl, d1, ?_⟩
              rw [Store.alloc_next]
              exact Nat.lt_succ_self _
            · refine ⟨.arr trs, ?_, ?_⟩
              · rw [toTree_ref_arr fuel st a elems hl, dtr1]
                rfl
              · rw [toTree_ref_arr fuel _ st1.next elems1 hself,
                  treeList_congr (toTree fuel (st1.alloc (Obj.arr elems1)).1)
                    (toTree fuel st1) elems1
                    (fun w hw => (toTree_agree st1.next st1 _ hpres d3
                      (le_refl _) fuel w (helemlt w hw)).symm),
                  dtr2]
                rfl
        | record f =>
          have hm := Store.lookup_mem st a _ hl
          have hvals := hws.2.2.2 (a, .record f) hm
          have hknd : (f.map Prod.fst).Nodup := by
            have := hws.2.2.1 (a, .record f) hm
            simpa [objFieldsOf] using this
          replace h : (match cloneFields (deepClone fuel) st f with
              | none => none
              | some (st1, f1) =>
                some ((st1.alloc (.record (jsFromEntries f1))).1, .ref st1.next)) =
              some (st', v') := h
          cases hcf : cloneFields (deepClone fuel) st f with
          | none =>
            rw [hcf] at h
            cases (show (none : Option (Store × Val)) = some (st', v') from h)
          | some q =>
            obtain ⟨st1, f1⟩ := q
            rw [hcf] at h
            replace h : some ((st1.alloc (Obj.record (jsFromEntries f1))).1,
              Val.ref st1.next) = some (st', v') := h
            obtain ⟨he1, he2⟩ : (st1.alloc (Obj.record (jsFromEntries f1))).1 = st' ∧
                Val.ref st1.next = v' := by
              have h2 := Option.some.inj h
              exact ⟨congrArg Prod.fst h2, congrArg Prod.snd h2⟩
            rw [← he1, ← he2]
            obtain ⟨d1, d2, d3, d4, dk, d6, trs, dtr1, dtr2⟩ :=
              cloneFields_spec (deepClone fuel) fuel ih f st st1 f1 hws
                (fun q hq => hvals q.2 (List.mem_map_of_mem Prod.snd hq)) hcf
            have hje : jsFromEntries f1 = f1 :=
              jsFromEntries_self f1 (by rw [dk]; exact hknd)
            rw [hje]
            have hfldlt : ∀ q ∈ f1, valRefLt st1.next q.2 = true := by
              intro q hq
              rcases d6 q hq with ⟨p, hp⟩ | ⟨b, hb, hb1, hb2⟩
              · rw [hp]
                rfl
              · rw [hb]
                simpa [valRefLt] using hb2
            have hpres : ∀ b, b < st1.next →
                (st1.alloc (Obj.record f1)).1.lookup b = st1.lookup b := by
              intro b hb
              rw [Store.lookup_alloc, if_neg (Nat.ne_of_lt hb)]
            have hself : (st1.alloc (Obj.record f1)).1.lookup st1.next =
                some (Obj.record f1) := by
              rw [Store.lookup_alloc, if_pos rfl]
            refine ⟨?_, ?_, ?_, ?_, ?_, ?_⟩
            · rw [Store.alloc_next]
              exact le_trans d1 (Nat.le_succ _)
            · intro b hb
              rw [hpres b (lt_of_lt_of_le hb d1), d2 b hb]
            · refine WS_alloc st1 _ d3 ?_ ?_
              · intro w hw
                simp only [objVals] at hw
                obtain ⟨q, hq, rfl⟩ := List.mem_map.mp hw
                exact valRefLt_mono st1.next (st1.next + 1) q.2
                  (Nat.le_succ _) (hfldlt q hq)
              · simp only [objFieldsOf]
                rw [dk]
                exact hknd
            · refine FreshClosed_alloc st.next st1 _ d4 ?_
              intro w hw b hb
              simp only [objVals] at hw
              obtain ⟨q, hq, rfl⟩ := List.mem_map.mp hw
              rcases d6 q hq with ⟨p, hp⟩ | ⟨b', hb', hb1, hb2⟩
              · rw [hp] at hb
                cases hb
              · rw [hb'] at hb
                cases hb
                exact hb1
            · refine Or.inr ⟨a, st1.next, rfl, rfl, d1, ?_⟩
              rw [Store.alloc_next]
              exact Nat.lt_succ_self _
            · refine ⟨.record trs, ?_, ?_⟩
              · rw [toTree_ref_record fuel st a f hl, dtr1]
                rfl
              · rw [toTree_ref_record fuel _ st1.next f1 hself,
                  treeFields_congr (toTree fuel (st1.alloc (Obj.record f1)).1)
                    (toTree fuel st1) f1
                    (fun q hq => (toTree_agree st1.next st1 _ hpres d3
                      (le_refl _) fuel q.2 (hfldlt q hq)).symm),
                  dtr2]
                rfl

theorem ReachV_lt_next (st : Store) (hws : WS st) :
    ∀ v a, (∀ b, v = Val.ref b → b < st.next) → ReachV st v a → a < st.next := by
  intro v a hv hr
  induction hr with
  | here c => exact hv c rfl
  | step c b o w hl hw _ ih =>
    have hm := Store.lookup_mem st c o hl
    have := hws.2.2.2 (c, o) hm w hw
    refine ih ?_
    intro b' hb'
    rw [hb'] at this
    simpa [valRefLt] using this

theorem ReachV_ge_fresh (n : Nat) (st : Store) (hfc : FreshClosed n st) :
    ∀ v a, (∀ b, v = Val.ref b → n ≤ b) → ReachV st v a → n ≤ a := by
  intro v a hv hr
  induction hr with
  | here c => exact hv c rfl
  | step c b o w hl hw _ ih =>
    have hc : n ≤ c := hv c rfl
    refine ih ?_
    intro b' hb'
    exact hfc c o hc hl w hw b' hb'

/-- C5: a successful deepClone of a value in a well-formed store yields a
value that is deep-equal to the input — both denote the same value tree,
where a date-like value is read as its millisecond timestamp, so a cloned
date is a new date object carrying the same timestamp — and that shares no
mutable sub-structure with the input: the clone reaches only freshly
allocated addresses, disjoint from every address the input reaches, so no
mutation of either side can be observed through the other; moreover every
pre-existing object is left untouched. -/
theorem claim_C5_clone_independence (fuel : Nat) (st : Store) (v : Val)
    (st' : Store) (v' : Val) (hws : WS st)
    (h : deepClone fuel st v = some (st', v')) :
    (∃ tr, toTree fuel st v = some tr ∧ toTree fuel st' v' = some tr) ∧
    (∀ a, ReachV st' v' a → ¬ ReachV st v a) ∧
    (∀ a, a < st.next → st'.lookup a = st.lookup a) := by
  obtain ⟨c1, c2, c3, c4, c5, htr⟩ := deepClone_spec fuel st v st' v' hws h
  refine ⟨htr, ?_, c2⟩
  intro a hr' hr
  rcases c5 with ⟨p, hvp, hv'p⟩ | ⟨b0, b, hvb, hv'b, hb1, hb2⟩
  · rw [hv'p, hvp] at hr'
    cases hr'
  · have hge : st.next ≤ a := by
      refine ReachV_ge_fresh st.next st' c4 v' a ?_ hr'
      intro b' hb'
      rw [hv'b] at hb'
      cases hb'
      exact hb1
    have hb0lt : b0 < st.next := by
      rw [hvb] at h
      cases fuel with
      | zero => cases (show (none : Option (Store × Val)) = some (st', v') from h)
      | succ fuel =>
        rw [deepClone_succ_ref] at h
        cases hl : st.lookup b0 with
        | none =>
          rw [hl] at h
          cases (show (none : Option (Store × Val)) = some (st', v') from h)
        | some o => exact Store.lookup_lt_next st b0 o hws hl
    have hlt : a < st.next := by
      refine ReachV_lt_next st hws v a ?_ hr
      intro b' hb'
      rw [hvb] at hb'
      cases hb'
      exact hb0lt
    omega

/-- Witness for C5: cloning the record {x: d} holding a date object. -/
theorem claim_C5_clone_independence_witness :
    WS ⟨[(0, Obj.record [("x", Val.ref 1)]), (1, Obj.date 7 [])], 2⟩ ∧
    ((∃ tr, toTree 3 ⟨[(0, Obj.record [("x", Val.ref 1)]), (1, Obj.date 7 [])], 2⟩
        (.ref 0) = some tr ∧
      toTree 3 ⟨[(3, Obj.record [("x", Val.ref 2)]), (2, Obj.date 7 []),
        (0, Obj.record [("x", Val.ref 1)]), (1, Obj.date 7 [])], 4⟩
        (.ref 3) = some tr) ∧
    (∀ a, ReachV ⟨[(3, Obj.record [("x", Val.ref 2)]), (2, Obj.date 7 []),
        (0, Obj.record [("x", Val.ref 1)]), (1, Obj.date 7 [])], 4⟩ (.ref 3) a →
      ¬ ReachV ⟨[(0, Obj.record [("x", Val.ref 1)]), (1, Obj.date 7 [])], 2⟩
        (.ref 0) a) ∧
    (∀ a, a < (⟨[(0, Obj.record [("x", Val.ref 1)]), (1, Obj.date 7 [])], 2⟩ :
        Store).next →
      (⟨[(3, Obj.record [("x", Val.ref 2)]), (2, Obj.date 7 []),
        (0, Obj.record [("x", Val.ref 1)]), (1, Obj.date 7 [])], 4⟩ :
        Store).lookup a =
      (⟨[(0, Obj.record [("x", Val.ref 1)]), (1, Obj.date 7 [])], 2⟩ :
        Store).lookup a)) :=
  ⟨by decide,
   claim_C5_clone_independence 3
     ⟨[(0, Obj.record [("x", Val.ref 1)]), (1, Obj.date 7 [])], 2⟩ (.ref 0)
     ⟨[(3, Obj.record [("x", Val.ref 2)]), (2, Obj.date 7 []),
       (0, Obj.record [("x", Val.ref 1)]), (1, Obj.date 7 [])], 4⟩ (.ref 3)
     (by decide) (by decide)⟩

-- Lemmas towards the deepMerge frame claim.

theorem getF_mem (f : List (String × Val)) (k : String) (v : Val)
    (h : getF f k = some v) : (k, v) ∈ f := by
  induction f with
  | nil => cases h
  | cons p rest ih =>
    obtain ⟨k', w⟩ := p
    by_cases he : k' = k
    · subst he
      rw [getF, if_pos rfl] at h
      exact (Option.some.inj h) ▸ List.mem_cons_self _ _
    · rw [getF, if_neg he] at h
      exact List.mem_cons_of_mem _ (ih h)

theorem getF_eq_of_mem_nodup (f : List (String × Val)) (k : String) (v : Val)
    (hm : (k, v) ∈ f) (hnd : (f.map Prod.fst).Nodup) : getF f k = some v := by
  induction f with
  | nil => cases hm
  | cons p rest ih =>
    obtain ⟨k', w⟩ := p
    simp only [List.map_cons, List.nodup_cons] at hnd
    rcases List.mem_cons.mp hm with he | hm
    · cases he
      rw [getF, if_pos rfl]
    · have hne : k' ≠ k := by
        intro e
        subst e
        exact hnd.1 (List.mem_map_of_mem Prod.fst hm)
      rw [getF, if_neg hne]
      exact ih hm hnd.2

theorem sameShell_refl (o : Obj) : sameShell o o := by
  cases o <;> simp [sameShell]

theorem sameShell_trans (o1 o2 o3 : Obj) (h1 : sameShell o1 o2)
    (h2 : sameShell o2 o3) : sameShell o1 o3 := by
  cases o1 <;> cases o2 <;> cases o3 <;> simp_all [sameShell]

theorem sameShell_arr_right (o : Obj) (l : List Val)
    (h : sameShell o (.arr l)) : o = .arr l := by
  cases o <;> simp_all [sameShell]

theorem sameShell_arr_left (o : Obj) (l : List Val)
    (h : sameShell (.arr l) o) : o = .arr l := by
  cases o <;> simp_all [sameShell]

theorem ME_refl (st : Store) (t : Val) (hws : WS st) : MergeEvolve st st t where
  nextLe := le_refl _
  oldSome := fun _ o hl => ⟨o, hl, sameShell_refl o, fun _ _ hg => Or.inl hg⟩
  oldNone := fun _ _ h => h
  modReach := fun _ _ _ h1 h2 hne =>
    absurd (Option.some.inj (h1.symm.trans h2)) hne
  fresh := fun a o' ha hl =>
    absurd (Store.lookup_lt_next st a o' hws hl) (Nat.not_lt.mpr ha)

theorem newValOk_trans (st st1 : Store) (t : Val) (hme : MergeEvolve st st1 t)
    (v : Val) (h : newValOk st1 st1.next v) : newValOk st st.next v := by
  cases v with
  | prim p => trivial
  | ref b =>
    rcases h with hge | ⟨l, harr⟩ | hnone
    · exact Or.inl (le_trans hme.nextLe hge)
    · by_cases hb : b < st.next
      · cases hl0 : st.lookup b with
        | none => exact Or.inr (Or.inr hl0)
        | some o0 =>
          obtain ⟨o1, hl1, hsh, _⟩ := hme.oldSome b o0 hl0
          have : o1 = .arr l := Option.some.inj (hl1.symm.trans harr)
          subst this
          exact Or.inr (Or.inl ⟨l, by rw [hl0, sameShell_arr_right o0 l hsh]⟩)
      · exact Or.inl (Nat.not_lt.mp hb)
    · by_cases hb : b < st.next
      · cases hl0 : st.lookup b with
        | none => exact Or.inr (Or.inr hl0)
        | some o0 =>
          obtain ⟨o1, hl1, _, _⟩ := hme.oldSome b o0 hl0
          rw [hl1] at hnone
          cases hnone
      · exact Or.inl (Nat.not_lt.mp hb)

theorem newValOk_FReach_absurd (st : Store) (w : Val) (b : Nat) (o : Obj)
    (hnew : newValOk st st.next w)
    (hwlt : ∀ c, w = Val.ref c → c < st.next)
    (hfr : FReach st w b)
    (hl : st.lookup b = some o) (hrd : isRD o) : False := by
  cases w with
  | prim p => cases hfr
  | ref d =>
    rcases hnew with hge | ⟨l, harr⟩ | hnone
    · exact absurd (hwlt d rfl) (Nat.not_lt.mpr hge)
    · cases hfr with
      | here =>
        have : o = .arr l := Option.some.inj (hl.symm.trans harr)
        rw [this] at hrd
        exact hrd
      | step _ _ o' w' hl' hw' _ =>
        have : o' = .arr l := Option.some.inj (hl'.symm.trans harr)
        rw [this] at hw'
        simp [objFieldVals, objFieldsOf] at hw'
    · cases hfr with
      | here => rw [hnone] at hl; cases hl
      | step _ _ o' w' hl' hw' _ => rw [hnone] at hl'; cases hl'

theorem FReach_transfer (st st1 : Store) (t : Val) (hws : WS st) (hws1 : WS st1)
    (hme : MergeEvolve st st1 t) :
    ∀ x a, FReach st1 x a → ∀ o, st.lookup a = some o → isRD o →
      FReach st x a ∧ (∀ c, x = Val.ref c → c < st.next) := by
  intro x a hr
  induction hr with
  | here c =>
    intro o hl _
    refine ⟨FReach.here c, ?_⟩
    intro c' hc'
    cases hc'
    exact Store.lookup_lt_next st c o hws hl
  | step c b o1 w hl1 hw hrest ih =>
    intro o hl hrd
    obtain ⟨hfr_w, hwlt⟩ := ih o hl hrd
    by_cases hc : c < st.next
    · cases hl0 : st.lookup c with
      | none =>
        rw [hme.oldNone c hc hl0] at hl1
        cases hl1
      | some o0 =>
        obtain ⟨o1', hl1', hsh, hfe⟩ := hme.oldSome c o0 hl0
        have ho1 : o1' = o1 := Option.some.inj (hl1'.symm.trans hl1)
        rw [ho1] at hfe
        obtain ⟨q, hq, hqw⟩ := List.mem_map.mp hw
        have hnd1 : ((objFieldsOf o1).map Prod.fst).Nodup :=
          hws1.2.2.1 (c, o1) (Store.lookup_mem st1 c o1 hl1)
        have hgf : getF (objFieldsOf o1) q.1 = some q.2 :=
          getF_eq_of_mem_nodup _ _ _ (by rw [show (q.1, q.2) = q from rfl]; exact hq) hnd1
        rcases hfe q.1 q.2 hgf with hold | hnew
        · refine ⟨FReach.step c b o0 w hl0 ?_ hfr_w, ?_⟩
          · rw [← hqw]
            exact List.mem_map_of_mem Prod.snd (getF_mem _ _ _ hold)
          · intro c' hc'
            cases hc'
            exact hc
        · exact absurd (newValOk_FReach_absurd st w b o (hqw ▸ hnew) hwlt
            hfr_w hl hrd) (fun h => h)
    · obtain ⟨f, ho1, hfv⟩ := hme.fresh c o1 (Nat.not_lt.mp hc) hl1
      subst ho1
      obtain ⟨q, hq, hqw⟩ := List.mem_map.mp hw
      have hnd1 : ((f : List (String × Val)).map Prod.fst).Nodup := by
        have := hws1.2.2.1 (c, .record f) (Store.lookup_mem st1 c _ hl1)
        simpa [objFieldsOf] using this
      have hgf : getF f q.1 = some q.2 :=
        getF_eq_of_mem_nodup _ _ _
          (by rw [show (q.1, q.2) = q from rfl]
              simpa [objFieldVals, objFieldsOf] using hq) hnd1
      have hnew := hfv q.1 q.2 hgf
      exact absurd (newValOk_FReach_absurd st w b o (hqw ▸ hnew) hwlt
        hfr_w hl hrd) (fun h => h)

theorem ME_trans (st st1 st2 : Store) (t t1 : Val)
    (hws : WS st) (hws1 : WS st1)
    (hme1 : MergeEvolve st st1 t)
    (hme2 : MergeEvolve st1 st2 t1)
    (hsub : MergeSub st st.next t t1) :
    MergeEvolve st st2 t where
  nextLe := le_trans hme1.nextLe hme2.nextLe
  oldSome := by
    intro a o hl
    obtain ⟨o1, hl1, hsh1, hfe1⟩ := hme1.oldSome a o hl
    obtain ⟨o2, hl2, hsh2, hfe2⟩ := hme2.oldSome a o1 hl1
    refine ⟨o2, hl2, sameShell_trans o o1 o2 hsh1 hsh2, ?_⟩
    intro k v hg
    rcases hfe2 k v hg with h1 | h1
    · exact hfe1 k v h1
    · exact Or.inr (newValOk_trans st st1 t hme1 v h1)
  oldNone := by
    intro a ha hl
    exact hme2.oldNone a (lt_of_lt_of_le ha hme1.nextLe) (hme1.oldNone a ha hl)
  modReach := by
    intro a o o2 hl hl2 hne
    obtain ⟨o1, hl1, hsh1, _⟩ := hme1.oldSome a o hl
    by_cases he : o = o1
    · subst he
      have hfr1 : FReach st1 t1 a := hme2.modReach a o o2 hl1 hl2 hne
      obtain ⟨o2', hl2', hsh2, _⟩ := hme2.oldSome a o hl1
      have he2 : o2' = o2 := Option.some.inj (hl2'.symm.trans hl2)
      rw [he2] at hsh2
      have hrd : isRD o := by
        cases o with
        | arr l => exact absurd (sameShell_arr_left o2 l hsh2).symm hne
        | date ms f => trivial
        | record f => trivial
      obtain ⟨hfr_t1, ht1lt⟩ :=
        FReach_transfer st st1 t hws hws1 hme1 t1 a hfr1 o hl hrd
      rcases hsub with rfl | ⟨ta, o0, k, htv, hl0, hg⟩ | hnew
      · exact hfr_t1
      · rw [htv]
        exact FReach.step ta a o0 t1 hl0
          (List.mem_map_of_mem Prod.snd (getF_mem _ _ _ hg)) hfr_t1
      · exact absurd (newValOk_FReach_absurd st t1 a o hnew ht1lt hfr_t1 hl hrd)
          (fun h => h)
    · exact hme1.modReach a o o1 hl hl1 he
  fresh := by
    intro a o2 ha hl2
    by_cases h1 : a < st1.next
    · cases hl1 : st1.lookup a with
      | none =>
        rw [hme2.oldNone a h1 hl1] at hl2
        cases hl2
      | some o1 =>
        obtain ⟨f1, ho1, hfv1⟩ := hme1.fresh a o1 ha hl1
        subst ho1
        obtain ⟨o2', hl2', hsh2, hfe2⟩ := hme2.oldSome a (.record f1) hl1
        have he2 : o2' = o2 := Option.some.inj (hl2'.symm.trans hl2)
        rw [he2] at hsh2 hfe2
        cases o2 with
        | arr l => exact absurd hsh2 (by simp [sameShell])
        | date ms f => exact absurd hsh2 (by simp [sameShell])
        | record f2 =>
          refine ⟨f2, rfl, ?_⟩
          intro k v hg
          rcases hfe2 k v (by simpa [objFieldsOf] using hg) with hold | hnew
          · exact hfv1 k v (by simpa [objFieldsOf] using hold)
          · exact newValOk_trans st st1 t hme1 v hnew
    · obtain ⟨f2, ho2, hfv2⟩ := hme2.fresh a o2 (Nat.not_lt.mp h1) hl2
      exact ⟨f2, ho2, fun k v hg => newValOk_trans st st1 t hme1 v (hfv2 k v hg)⟩

theorem setF_nodup (f : List (String × Val)) (k : String) (v : Val)
    (h : (f.map Prod.fst).Nodup) : ((setF f k v).map Prod.fst).Nodup := by
  rw [setF_keys]
  by_cases hm : k ∈ f.map Prod.fst
  · rw [if_pos hm]
    exact h
  · rw [if_neg hm]
    rw [List.nodup_append]
    exact ⟨h, List.nodup_singleton k, fun x hx hx2 => hm (by
      simp only [List.mem_singleton] at hx2
      rw [← hx2]
      exact hx)⟩

theorem setF_val_mem (f : List (String × Val)) (k : String) (v : Val) :
    ∀ w ∈ (setF f k v).map Prod.snd, w ∈ f.map Prod.snd ∨ w = v := by
  induction f with
  | nil =>
    intro w hw
    simp [setF] at hw
    exact Or.inr hw
  | cons p rest ih =>
    obtain ⟨k', v'⟩ := p
    intro w hw
    rw [setF] at hw
    by_cases he : k' = k
    · rw [if_pos he] at hw
      simp only [List.map_cons, List.mem_cons] at hw
      rcases hw with rfl | hw
      · exact Or.inr rfl
      · exact Or.inl (by
          simp only [List.map_cons, List.mem_cons]
          exact Or.inr hw)
    · rw [if_neg he] at hw
      simp only [List.map_cons, List.mem_cons] at hw
      rcases hw with rfl | hw
      · exact Or.inl (by simp)
      · rcases ih w hw with hm | hm
        · exact Or.inl (by
            simp only [List.map_cons, List.mem_cons]
            exact Or.inr hm)
        · exact Or.inr hm

theorem Store.update_keys (st : Store) (a : Nat) (o : Obj) :
    (st.update a o).objs.map Prod.fst = st.objs.map Prod.fst := by
  show (st.objs.map _).map Prod.fst = _
  rw [List.map_map]
  refine List.map_congr_left ?_
  intro p _
  by_cases h : p.1 = a <;> simp [Function.comp, h]

theorem WS_update (st : Store) (a : Nat) (o' : Obj) (hws : WS st)
    (hnodup : ((objFieldsOf o').map Prod.fst).Nodup)
    (hvals : ∀ w ∈ objVals o', valRefLt st.next w = true) :
    WS (st.update a o') := by
  obtain ⟨h1, h2, h3, h4⟩ := hws
  refine ⟨?_, ?_, ?_, ?_⟩
  · intro p' hp'
    obtain ⟨p, hp, rfl⟩ := List.mem_map.mp hp'
    by_cases h : p.1 = a
    · simpa [h] using h ▸ h1 p hp
    · simpa [h] using h1 p hp
  · rw [show (st.update a o').objs.map Prod.fst = st.objs.map Prod.fst from
      Store.update_keys st a o']
    exact h2
  · intro p' hp'
    obtain ⟨p, hp, rfl⟩ := List.mem_map.mp hp'
    by_cases h : p.1 = a
    · simpa [h] using hnodup
    · simpa [h] using h3 p hp
  · intro p' hp' w hw
    obtain ⟨p, hp, rfl⟩ := List.mem_map.mp hp'
    by_cases h : p.1 = a
    · rw [if_pos h] at hw
      exact hvals w hw
    · rw [if_neg h] at hw
      exact h4 p hp w hw

theorem getField_valRefLt (st : Store) (v : Val) (k : String) (hws : WS st) :
    valRefLt st.next (getField st v k) = true := by
  unfold getField
  cases hg : getF (objFields st v) k with
  | none => rfl
  | some w =>
    simp only [Option.getD]
    cases v with
    | prim p => simp [objFields, getF] at hg
    | ref a =>
      cases hl : st.lookup a with
      | none => rw [objFields, hl] at hg; simp [getF] at hg
      | some o =>
        cases o with
        | arr l => rw [objFields, hl] at hg; simp [getF] at hg
        | date ms f =>
          rw [objFields, hl] at hg
          have hm := getF_mem f k w hg
          exact hws.2.2.2 (a, .date ms f) (Store.lookup_mem st a _ hl) w
            (by simp [objVals]; exact ⟨k, hm⟩)
        | record f =>
          rw [objFields, hl] at hg
          have hm := getF_mem f k w hg
          exact hws.2.2.2 (a, .record f) (Store.lookup_mem st a _ hl) w
            (by simp [objVals]; exact ⟨k, hm⟩)

theorem MergeSub_getField (st : Store) (t : Val) (k : String) :
    MergeSub st st.next t (getField st t k) := by
  cases t with
  | prim p =>
    rw [show getField st (.prim p) k = .prim .vundef from rfl]
    exact Or.inr (Or.inr trivial)
  | ref a =>
    cases hl : st.lookup a with
    | none =>
      rw [show getField st (.ref a) k = (getF (objFields st (.ref a)) k).getD
        (.prim .vundef) from rfl, objFields, hl]
      exact Or.inr (Or.inr trivial)
    | some o =>
      cases o with
      | arr l =>
        rw [show getField st (.ref a) k = (getF (objFields st (.ref a)) k).getD
          (.prim .vundef) from rfl, objFields, hl]
        exact Or.inr (Or.inr trivial)
      | date ms f =>
        cases hg : getF f k with
        | none =>
          rw [show getField st (.ref a) k = (getF (objFields st (.ref a)) k).getD
            (.prim .vundef) from rfl, objFields, hl, hg]
          exact Or.inr (Or.inr trivial)
        | some w =>
          have : getField st (.ref a) k = w := by
            rw [show getField st (.ref a) k = (getF (objFields st (.ref a)) k).getD
              (.prim .vundef) from rfl, objFields, hl, hg]
            rfl
          rw [this]
          exact Or.inr (Or.inl ⟨a, .date ms f, k, rfl, hl, by simpa [objFieldsOf] using hg⟩)
      | record f =>
        cases hg : getF f k with
        | none =>
          rw [show getField st (.ref a) k = (getF (objFields st (.ref a)) k).getD
            (.prim .vundef) from rfl, objFields, hl, hg]
          exact Or.inr (Or.inr trivial)
        | some w =>
          have : getField st (.ref a) k = w := by
            rw [show getField st (.ref a) k = (getF (objFields st (.ref a)) k).getD
              (.prim .vundef) from rfl, objFields, hl, hg]
            rfl
          rw [this]
          exact Or.inr (Or.inl ⟨a, .record f, k, rfl, hl, by simpa [objFieldsOf] using hg⟩)

theorem assignField_date (st : Store) (a : Nat) (ms : Int)
    (f : List (String × Val)) (k : String) (w : Val)
    (h : st.lookup a = some (.date ms f)) :
    assignField st (.ref a) k w = st.update a (.date ms (setF f k w)) := by
  simp [assignField, h]

theorem ME_alloc (st : Store) (t : Val) (hws : WS st) :
    MergeEvolve st (st.alloc (.record [])).1 t ∧ WS (st.alloc (.record [])).1 := by
  constructor
  · exact {
      nextLe := by
        rw [Store.alloc_next]
        exact Nat.le_succ _
      oldSome := by
        intro a o hl
        have ha : a < st.next := Store.lookup_lt_next st a o hws hl
        refine ⟨o, ?_, sameShell_refl o, fun _ _ hg => Or.inl hg⟩
        rw [Store.lookup_alloc, if_neg (Nat.ne_of_lt ha)]
        exact hl
      oldNone := by
        intro a ha hl
        rw [Store.lookup_alloc, if_neg (Nat.ne_of_lt ha)]
        exact hl
      modReach := by
        intro a o o' hl hl' hne
        have ha : a < st.next := Store.lookup_lt_next st a o hws hl
        rw [Store.lookup_alloc, if_neg (Nat.ne_of_lt ha), hl] at hl'
        exact absurd (Option.some.inj hl') hne
      fresh := by
        intro a o' ha hl'
        rw [Store.lookup_alloc] at hl'
        by_cases he : a = st.next
        · rw [if_pos he] at hl'
          cases hl'
          exact ⟨[], rfl, fun k v hg => by cases hg⟩
        · rw [if_neg he] at hl'
          exact absurd (Store.lookup_lt_next st a o' hws hl') (Nat.not_lt.mpr ha)
    }
  · exact WS_alloc st _ hws (by simp [objVals]) (by simp [objFieldsOf])

theorem ME_assign_core (st : Store) (a : Nat)
    (rebuild : List (String × Val) → Obj)
    (f : List (String × Val)) (k : String) (w : Val) (hws : WS st)
    (hl : st.lookup a = some (rebuild f))
    (hfld : ∀ g, objFieldsOf (rebuild g) = g)
    (hvls : ∀ g, objVals (rebuild g) = g.map Prod.snd)
    (hsh : ∀ g, sameShell (rebuild f) (rebuild g))
    (hok : newValOk st st.next w)
    (hlt : valRefLt st.next w = true) :
    MergeEvolve st (st.update a (rebuild (setF f k w))) (.ref a) ∧
    WS (st.update a (rebuild (setF f k w))) := by
  have hnd : (f.map Prod.fst).Nodup := by
    have := hws.2.2.1 (a, rebuild f) (Store.lookup_mem st a _ hl)
    rwa [hfld] at this
  constructor
  · exact {
      nextLe := le_refl _
      oldSome := by
        intro b o hlb
        by_cases hba : b = a
        · subst hba
          have ho : o = rebuild f := Option.some.inj (hlb.symm.trans hl)
          subst ho
          refine ⟨rebuild (setF f k w), ?_, hsh _, ?_⟩
          · rw [Store.lookup_update, if_pos rfl, hl]
            rfl
          · intro k' v hg
            rw [hfld] at hg
            by_cases hk : k' = k
            · subst hk
              rw [getF_setF_self] at hg
              cases hg
              exact Or.inr hok
            · rw [getF_setF_other f k' k w (fun e => hk e.symm)] at hg
              rw [hfld]
              exact Or.inl hg
        · refine ⟨o, ?_, sameShell_refl o, fun _ _ hg => Or.inl hg⟩
          rw [Store.lookup_update, if_neg hba]
          exact hlb
      oldNone := by
        intro b hb hlb
        by_cases hba : b = a
        · subst hba
          rw [hl] at hlb
          cases hlb
        · rw [Store.lookup_update, if_neg hba]
          exact hlb
      modReach := by
        intro b o o' hlb hlb' hne
        by_cases hba : b = a
        · subst hba
          exact FReach.here b
        · rw [Store.lookup_update, if_neg hba, hlb] at hlb'
          exact absurd (Option.some.inj hlb') hne
      fresh := by
        intro b o' hb hlb'
        by_cases hba : b = a
        · subst hba
          exact absurd (Store.lookup_lt_next st b _ hws hl) (Nat.not_lt.mpr hb)
        · rw [Store.lookup_update, if_neg hba] at hlb'
          exact absurd (Store.lookup_lt_next st b o' hws hlb') (Nat.not_lt.mpr hb)
    }
  · refine WS_update st a _ hws ?_ ?_
    · rw [hfld]
      exact setF_nodup f k w hnd
    · rw [hvls]
      intro w' hw'
      rcases setF_val_mem f k w w' hw' with hm | rfl
      · exact hws.2.2.2 (a, rebuild f) (Store.lookup_mem st a _ hl) w'
          (by rw [hvls]; exact hm)
      · exact hlt

theorem ME_assignField (st : Store) (target : Val) (k : String) (w : Val)
    (hws : WS st) (hok : newValOk st st.next w)
    (hlt : valRefLt st.next w = true) :
    MergeEvolve st (assignField st target k w) target ∧
    WS (assignField st target k w) := by
  cases target with
  | prim p => exact ⟨ME_refl st _ hws, hws⟩
  | ref a =>
    cases hl : st.lookup a with
    | none =>
      rw [show assignField st (.ref a) k w = st by simp [assignField, hl]]
      exact ⟨ME_refl st _ hws, hws⟩
    | some o =>
      cases o with
      | arr l =>
        rw [show assignField st (.ref a) k w = st by simp [assignField, hl]]
        exact ⟨ME_refl st _ hws, hws⟩
      | record f =>
        rw [assignField_record st a f k w hl]
        exact ME_assign_core st a Obj.record f k w hws hl (fun _ => rfl)
          (fun _ => rfl) (fun _ => trivial) hok hlt
      | date ms f =>
        rw [assignField_date st a ms f k w hl]
        exact ME_assign_core st a (Obj.date ms) f k w hws hl (fun _ => rfl)
          (fun _ => rfl) (fun _ => by simp [sameShell]) hok hlt

theorem ME_allocAssign_core (st : Store) (a : Nat)
    (rebuild : List (String × Val) → Obj) (f : List (String × Val)) (k : String)
    (hws : WS st)
    (hl : st.lookup a = some (rebuild f))
    (hfld : ∀ g, objFieldsOf (rebuild g) = g)
    (hvls : ∀ g, objVals (rebuild g) = g.map Prod.snd)
    (hsh : ∀ g, sameShell (rebuild f) (rebuild g)) :
    MergeEvolve st ((st.alloc (.record [])).1.update a
      (rebuild (setF f k (.ref st.next)))) (.ref a) ∧
    WS ((st.alloc (.record [])).1.update a (rebuild (setF f k (.ref st.next)))) := by
  have ha : a < st.next := Store.lookup_lt_next st a _ hws hl
  have hlA : (st.alloc (.record [])).1.lookup a = some (rebuild f) := by
    rw [Store.lookup_alloc, if_neg (Nat.ne_of_lt ha)]
    exact hl
  have hnd : (f.map Prod.fst).Nodup := by
    have := hws.2.2.1 (a, rebuild f) (Store.lookup_mem st a _ hl)
    rwa [hfld] at this
  constructor
  · exact {
      nextLe := by
        rw [Store.update_next, Store.alloc_next]
        exact Nat.le_succ _
      oldSome := by
        intro b o hlb
        have hb : b < st.next := Store.lookup_lt_next st b o hws hlb
        by_cases hba : b = a
        · subst hba
          have ho : o = rebuild f := Option.some.inj (hlb.symm.trans hl)
          subst ho
          refine ⟨rebuild (setF f k (.ref st.next)), ?_, hsh _, ?_⟩
          · rw [Store.lookup_update, if_pos rfl, hlA]
            rfl
          · intro k' v hg
            rw [hfld] at hg
            by_cases hk : k' = k
            · subst hk
              rw [getF_setF_self] at hg
              cases hg
              exact Or.inr (Or.inl (le_refl _))
            · rw [getF_setF_other f k' k _ (fun e => hk e.symm)] at hg
              rw [hfld]
              exact Or.inl hg
        · refine ⟨o, ?_, sameShell_refl o, fun _ _ hg => Or.inl hg⟩
          rw [Store.lookup_update, if_neg hba, Store.lookup_alloc,
            if_neg (Nat.ne_of_lt hb)]
          exact hlb
      oldNone := by
        intro b hb hlb
        by_cases hba : b = a
        · subst hba
          rw [hl] at hlb
          cases hlb
        · rw [Store.lookup_update, if_neg hba, Store.lookup_alloc,
            if_neg (Nat.ne_of_lt hb)]
          exact hlb
      modReach := by
        intro b o o' hlb hlb' hne
        have hb : b < st.next := Store.lookup_lt_next st b o hws hlb
        by_cases hba : b = a
        · subst hba
          exact FReach.here b
        · rw [Store.lookup_update, if_neg hba, Store.lookup_alloc,
            if_neg (Nat.ne_of_lt hb), hlb] at hlb'
          exact absurd (Option.some.inj hlb') hne
      fresh := by
        intro b o' hb hlb'
        by_cases hba : b = a
        · subst hba
          exact absurd ha (Nat.not_lt.mpr hb)
        · rw [Store.lookup_update, if_neg hba, Store.lookup_alloc] at hlb'
          by_cases hbn : b = st.next
          · rw [if_pos hbn] at hlb'
            cases hlb'
            exact ⟨[], rfl, fun k' v hg => by cases hg⟩
          · rw [if_neg hbn] at hlb'
            exact absurd (Store.lookup_lt_next st b o' hws hlb')
              (Nat.not_lt.mpr hb)
    }
  · refine WS_update _ a _ (WS_alloc st _ hws (by simp [objVals])
      (by simp [objFieldsOf])) ?_ ?_
    · rw [hfld]
      exact setF_nodup f k _ hnd
    · rw [hvls]
      intro w' hw'
      rcases setF_val_mem f k (.ref st.next) w' hw' with hm | rfl
      · have := hws.2.2.2 (a, rebuild f) (Store.lookup_mem st a _ hl) w'
          (by rw [hvls]; exact hm)
        rw [Store.alloc_next]
        exact valRefLt_mono st.next (st.next + 1) w' (Nat.le_succ _) this
      · rw [Store.alloc_next]
        simp [valRefLt]

theorem ME_allocAssign (st : Store) (target : Val) (k : String) (hws : WS st) :
    MergeEvolve st (assignField (st.alloc (.record [])).1 target k (.ref st.next))
      target ∧
    WS (assignField (st.alloc (.record [])).1 target k (.ref st.next)) := by
  cases target with
  | prim p => exact ME_alloc st _ hws
  | ref a =>
    by_cases ha : a = st.next
    · subst ha
      have hlA : (st.alloc (.record [])).1.lookup st.next = some (.record []) := by
        rw [Store.lookup_alloc, if_pos rfl]
      rw [assignField_record _ st.next [] k _ hlA]
      constructor
      · exact {
          nextLe := by
            rw [Store.update_next, Store.alloc_next]
            exact Nat.le_succ _
          oldSome := by
            intro b o hlb
            have hb : b < st.next := Store.lookup_lt_next st b o hws hlb
            refine ⟨o, ?_, sameShell_refl o, fun _ _ hg => Or.inl hg⟩
            rw [Store.lookup_update, if_neg (Nat.ne_of_lt hb),
              Store.lookup_alloc, if_neg (Nat.ne_of_lt hb)]
            exact hlb
          oldNone := by
            intro b hb hlb
            rw [Store.lookup_update, if_neg (Nat.ne_of_lt hb),
              Store.lookup_alloc, if_neg (Nat.ne_of_lt hb)]
            exact hlb
          modReach := by
            intro b o o' hlb hlb' hne
            have hb : b < st.next := Store.lookup_lt_next st b o hws hlb
            rw [Store.lookup_update, if_neg (Nat.ne_of_lt hb),
              Store.lookup_alloc, if_neg (Nat.ne_of_lt hb), hlb] at hlb'
            exact absurd (Option.some.inj hlb') hne
          fresh := by
            intro b o' hb hlb'
            by_cases hbn : b = st.next
            · subst hbn
              rw [Store.lookup_update, if_pos rfl, hlA] at hlb'
              cases hlb'
              refine ⟨setF [] k (.ref st.next), rfl, ?_⟩
              intro k' v hg
              rw [show setF [] k (Val.ref st.next) = [(k, Val.ref st.next)]
                from rfl] at hg
              by_cases hk : k = k'
              · rw [getF, if_pos hk] at hg
                cases hg
                exact Or.inl (le_refl _)
              · rw [getF, if_neg hk] at hg
                cases hg
            · rw [Store.lookup_update, if_neg hbn, Store.lookup_alloc,
                if_neg hbn] at hlb'
              exact absurd (Store.lookup_lt_next st b o' hws hlb')
                (Nat.not_lt.mpr hb)
        }
      · refine WS_update _ st.next _ (WS_alloc st _ hws (by simp [objVals])
          (by simp [objFieldsOf])) ?_ ?_
        · simp [objFieldsOf, setF]
        · intro w' hw'
          rw [show objVals (Obj.record (setF [] k (Val.ref st.next))) =
            [Val.ref st.next] from rfl] at hw'
          rcases List.mem_singleton.mp hw' with rfl
          rw [Store.alloc_next]
          simp [valRefLt]
    · have hlA : (st.alloc (.record [])).1.lookup a = st.lookup a := by
        rw [Store.lookup_alloc, if_neg ha]
      cases hl : st.lookup a with
      | none =>
        rw [show assignField (st.alloc (.record [])).1 (.ref a) k
          (.ref st.next) = (st.alloc (.record [])).1 by
            simp [assignField, hlA, hl]]
        exact ME_alloc st _ hws
      | some o =>
        cases o with
        | arr l =>
          rw [show assignField (st.alloc (.record [])).1 (.ref a) k
            (.ref st.next) = (st.alloc (.record [])).1 by
              simp [assignField, hlA, hl]]
          exact ME_alloc st _ hws
        | record f =>
          rw [assignField_record _ a f k _ (by rw [hlA]; exact hl)]
          exact ME_allocAssign_core st a Obj.record f k hws hl (fun _ => rfl)
            (fun _ => rfl) (fun _ => trivial)
        | date ms f =>
          rw [assignField_date _ a ms f k _ (by rw [hlA]; exact hl)]
          exact ME_allocAssign_core st a (Obj.date ms) f k hws hl (fun _ => rfl)
            (fun _ => rfl) (fun _ => by simp [sameShell])

theorem MergeSub_getField_evolved (st st1 : Store) (t : Val) (k : String)
    (hme : MergeEvolve st st1 t) :
    MergeSub st st.next t (getField st1 t k) := by
  cases t with
  | prim p => exact Or.inr (Or.inr trivial)
  | ref a =>
    cases hl1 : st1.lookup a with
    | none =>
      have hgv : getField st1 (.ref a) k = .prim .vundef := by
        simp [getField, objFields, hl1, getF]
      rw [hgv]
      exact Or.inr (Or.inr trivial)
    | some o =>
      cases o with
      | arr l =>
        have hgv : getField st1 (.ref a) k = .prim .vundef := by
          simp [getField, objFields, hl1, getF]
        rw [hgv]
        exact Or.inr (Or.inr trivial)
      | record f =>
        have hgf : getField st1 (.ref a) k = (getF f k).getD (.prim .vundef) := by
          simp [getField, objFields, hl1]
        cases hg : getF f k with
        | none =>
          rw [hgf, hg]
          exact Or.inr (Or.inr trivial)
        | some w =>
          rw [hgf, hg]
          by_cases ha : a < st.next
          · cases hl0 : st.lookup a with
            | none =>
              rw [hme.oldNone a ha hl0] at hl1
              cases hl1
            | some o0 =>
              obtain ⟨o1, hl1', hsh, hfe⟩ := hme.oldSome a o0 hl0
              have ho1 : o1 = .record f := Option.some.inj (hl1'.symm.trans hl1)
              rw [ho1] at hfe
              rcases hfe k w (by simpa [objFieldsOf] using hg) with hold | hnew
              · exact Or.inr (Or.inl ⟨a, o0, k, rfl, hl0, hold⟩)
              · exact Or.inr (Or.inr hnew)
          · obtain ⟨f', ho, hfv⟩ := hme.fresh a (.record f) (Nat.not_lt.mp ha) hl1
            have hf : f' = f := by
              injection ho with hfe2
              exact hfe2.symm
            rw [hf] at hfv
            exact Or.inr (Or.inr (hfv k w hg))
      | date ms f =>
        have hgf : getField st1 (.ref a) k = (getF f k).getD (.prim .vundef) := by
          simp [getField, objFields, hl1]
        cases hg : getF f k with
        | none =>
          rw [hgf, hg]
          exact Or.inr (Or.inr trivial)
        | some w =>
          rw [hgf, hg]
          by_cases ha : a < st.next
          · cases hl0 : st.lookup a with
            | none =>
              rw [hme.oldNone a ha hl0] at hl1
              cases hl1
            | some o0 =>
              obtain ⟨o1, hl1', hsh, hfe⟩ := hme.oldSome a o0 hl0
              have ho1 : o1 = .date ms f := Option.some.inj (hl1'.symm.trans hl1)
              rw [ho1] at hfe
              rcases hfe k w (by simpa [objFieldsOf] using hg) with hold | hnew
              · exact Or.inr (Or.inl ⟨a, o0, k, rfl, hl0, hold⟩)
              · exact Or.inr (Or.inr hnew)
          · obtain ⟨f', ho, hfv⟩ := hme.fresh a (.date ms f) (Nat.not_lt.mp ha) hl1
            cases ho

theorem mergeKeysME (dm : Store → Val → Val → Option Store) (hdm : MergeDM dm)
    (target source : Val) :
    ∀ (keys : List String) (st st' : Store), WS st →
      mergeKeys dm target source st keys = some st' →
      MergeEvolve st st' target ∧ WS st' := by
  intro keys
  induction keys with
  | nil =>
    intro st st' hws h
    rw [mergeKeys_nil] at h
    cases Option.some.inj h
    exact ⟨ME_refl st target hws, hws⟩
  | cons k ks ih =>
    intro st st' hws h
    rw [mergeKeys_cons] at h
    by_cases hobj : isObject st (getField st source k) = true
    · rw [if_pos hobj] at h
      by_cases htr : truthy (getField st target k) = true
      · rw [if_pos htr] at h
        cases hdm1 : dm st (getField st target k) (getField st source k) with
        | none =>
          rw [hdm1] at h
          cases (show (none : Option Store) = some st' from h)
        | some st2 =>
          rw [hdm1] at h
          replace h : mergeKeys dm target source st2 ks = some st' := h
          obtain ⟨hme2, hws2⟩ :=
            hdm st (getField st target k) (getField st source k) st2 hws hdm1
          obtain ⟨hme3, hws3⟩ := ih st2 st' hws2 h
          have hme12 : MergeEvolve st st2 target :=
            ME_trans st st st2 target (getField st target k) hws hws
              (ME_refl st target hws) hme2
              (MergeSub_getField_evolved st st target k (ME_refl st target hws))
          exact ⟨ME_trans st st2 st' target target hws hws2 hme12 hme3
            (Or.inl rfl), hws3⟩
      · rw [if_neg htr] at h
        obtain ⟨hmeA, hwsA⟩ := ME_allocAssign st target k hws
        cases hdm1 : dm
            (assignField (st.alloc (.record [])).1 target k (.ref st.next))
            (getField (assignField (st.alloc (.record [])).1 target k
              (.ref st.next)) target k)
            (getField (assignField (st.alloc (.record [])).1 target k
              (.ref st.next)) source k) with
        | none =>
          rw [hdm1] at h
          cases (show (none : Option Store) = some st' from h)
        | some st2 =>
          rw [hdm1] at h
          replace h : mergeKeys dm target source st2 ks = some st' := h
          obtain ⟨hme2, hws2⟩ := hdm _ _ _ st2 hwsA hdm1
          obtain ⟨hme3, hws3⟩ := ih st2 st' hws2 h
          have hme12 : MergeEvolve st st2 target :=
            ME_trans st _ st2 target _ hws hwsA hmeA hme2
              (MergeSub_getField_evolved st _ target k hmeA)
          exact ⟨ME_trans st st2 st' target target hws hws2 hme12 hme3
            (Or.inl rfl), hws3⟩
    · rw [if_neg hobj] at h
      have hok : newValOk st st.next (getField st source k) := by
        cases hv : getField st source k with
        | prim p => trivial
        | ref b =>
          rw [hv] at hobj
          cases hlb : st.lookup b with
          | none => exact Or.inr (Or.inr hlb)
          | some o =>
            cases o with
            | arr l => exact Or.inr (Or.inl ⟨l, hlb⟩)
            | record f =>
              rw [isObject_record st b f hlb] at hobj
              exact absurd rfl hobj
            | date ms f =>
              rw [isObject_date st b ms f hlb] at hobj
              exact absurd rfl hobj
      obtain ⟨hmeA, hwsA⟩ := ME_assignField st target k (getField st source k)
        hws hok (getField_valRefLt st source k hws)
      obtain ⟨hme3, hws3⟩ := ih _ st' hwsA h
      exact ⟨ME_trans st _ st' target target hws hwsA hmeA hme3
        (Or.inl rfl), hws3⟩

theorem deepMergeME : ∀ (fuel : Nat) (st : Store) (t : Val) (srcs : List Val)
    (st' : Store) (v : Val), WS st →
    deepMerge fuel st t srcs = some (st', v) →
    MergeEvolve st st' t ∧ WS st' := by
  intro fuel
  induction fuel with
  | zero =>
    intro st t srcs st' v hws h
    cases (show (none : Option (Store × Val)) = some (st', v) from h)
  | succ fuel ih =>
    intro st t srcs st' v hws h
    cases srcs with
    | nil =>
      rw [deepMerge_nil] at h
      obtain ⟨he1, he2⟩ : st = st' ∧ t = v := by
        have h2 := Option.some.inj h
        exact ⟨congrArg Prod.fst h2, congrArg Prod.snd h2⟩
      rw [← he1]
      exact ⟨ME_refl st t hws, hws⟩
    | cons source rest =>
      rw [deepMerge_cons] at h
      by_cases hu : source = Val.prim Prim.vundef
      · rw [if_pos hu] at h
        obtain ⟨he1, he2⟩ : st = st' ∧ t = v := by
          have h2 := Option.some.inj h
          exact ⟨congrArg Prod.fst h2, congrArg Prod.snd h2⟩
        rw [← he1]
        exact ⟨ME_refl st t hws, hws⟩
      · rw [if_neg hu] at h
        by_cases hio : (isObject st t && isObject st source) = true
        · rw [if_pos hio] at h
          cases hmk : mergeKeys (fun s x y => (deepMerge fuel s x [y]).map Prod.fst)
              t source st (objKeys st source) with
          | none =>
            rw [hmk] at h
            cases (show (none : Option (Store × Val)) = some (st', v) from h)
          | some st1 =>
            rw [hmk] at h
            replace h : deepMerge fuel st1 t rest = some (st', v) := h
            have hdm : MergeDM (fun s x y => (deepMerge fuel s x [y]).map Prod.fst) := by
              intro s x y s2 hws' hd
              replace hd : (deepMerge fuel s x [y]).map Prod.fst = some s2 := hd
              cases hd2 : deepMerge fuel s x [y] with
              | none =>
                rw [hd2] at hd
                cases hd
              | some p =>
                rw [hd2] at hd
                have hp : p.1 = s2 := Option.some.inj hd
                obtain ⟨hmeP, hwsP⟩ := ih s x [y] p.1 p.2 hws' (by rw [hd2])
                rw [← hp]
                exact ⟨hmeP, hwsP⟩
            obtain ⟨hme1, hws1⟩ :=
              mergeKeysME _ hdm t source (objKeys st source) st st1 hws hmk
            obtain ⟨hme2, hws2⟩ := ih st1 t rest st' v hws1 h
            exact ⟨ME_trans st st1 st' t t hws hws1 hme1 hme2 (Or.inl rfl), hws2⟩
        · rw [if_neg hio] at h
          replace h : deepMerge fuel st t rest = some (st', v) := h
          exact ih st t rest st' v hws h

/-- Counterexample to C4 as stated: with target {a: s} aliasing the source
record s = {a: {b: 2}} (target at address 0, source at address 1, inner
record at address 2), merging s into the target recurses into the aliased
source object itself and Object.assign writes the field "b" into it: after
the call the source record at address 1 has gained the entry ("b", 2), so a
source argument IS mutated when it is reachable from the target. -/
theorem claim_C4_counterexample :
    deepMerge 10
      ⟨[(0, Obj.record [("a", Val.ref 1)]),
        (1, Obj.record [("a", Val.ref 2)]),
        (2, Obj.record [("b", Val.prim (Prim.vnum 2))])], 3⟩
      (.ref 0) [.ref 1] =
      some (⟨[(0, Obj.record [("a", Val.ref 1)]),
        (1, Obj.record [("a", Val.ref 2), ("b", Val.prim (Prim.vnum 2))]),
        (2, Obj.record [("b", Val.prim (Prim.vnum 2))])], 3⟩, .ref 0) ∧
    Store.lookup
      ⟨[(0, Obj.record [("a", Val.ref 1)]),
        (1, Obj.record [("a", Val.ref 2)]),
        (2, Obj.record [("b", Val.prim (Prim.vnum 2))])], 3⟩ 1 =
      some (Obj.record [("a", Val.ref 2)]) ∧
    Store.lookup
      ⟨[(0, Obj.record [("a", Val.ref 1)]),
        (1, Obj.record [("a", Val.ref 2), ("b", Val.prim (Prim.vnum 2))]),
        (2, Obj.record [("b", Val.prim (Prim.vnum 2))])], 3⟩ 1 =
      some (Obj.record [("a", Val.ref 2), ("b", Val.prim (Prim.vnum 2))]) := by
  exact ⟨rfl, rfl, rfl⟩

/-- C4 amended: deepMerge mutates only objects field-reachable from the
target (through record and date fields) plus fresh allocations.  Any
object not field-reachable from the target — in particular any source
object disjoint from the target — is bitwise unchanged in the result
store.  (When a source IS field-reachable from the target, as in the
aliasing counterexample, it can be mutated.) -/
theorem claim_C4_amended (fuel : Nat) (st : Store) (t : Val) (srcs : List Val)
    (st' : Store) (v : Val) (a : Nat) (o : Obj)
    (hws : WS st)
    (h : deepMerge fuel st t srcs = some (st', v))
    (ha : st.lookup a = some o)
    (hnr : ¬ FReach st t a) :
    st'.lookup a = some o := by
  obtain ⟨hme, _⟩ := deepMergeME fuel st t srcs st' v hws h
  obtain ⟨o', ho', _, _⟩ := hme.oldSome a o ha
  by_cases heq : o = o'
  · rw [ho', ← heq]
  · exact absurd (hme.modReach a o o' ha ho' heq) hnr

theorem claim_C4_amended_witness :
    WS ⟨[(0, Obj.record []),
      (1, Obj.record [("a", Val.prim (Prim.vnum 1))])], 2⟩ ∧
    deepMerge 5
      ⟨[(0, Obj.record []),
        (1, Obj.record [("a", Val.prim (Prim.vnum 1))])], 2⟩
      (.ref 0) [.ref 1] =
      some (⟨[(0, Obj.record [("a", Val.prim (Prim.vnum 1))]),
        (1, Obj.record [("a", Val.prim (Prim.vnum 1))])], 2⟩, .ref 0) ∧
    Store.lookup
      ⟨[(0, Obj.record []),
        (1, Obj.record [("a", Val.prim (Prim.vnum 1))])], 2⟩ 1 =
      some (Obj.record [("a", Val.prim (Prim.vnum 1))]) ∧
    ¬ FReach
      ⟨[(0, Obj.record []),
        (1, Obj.record [("a", Val.prim (Prim.vnum 1))])], 2⟩ (.ref 0) 1 ∧
    Store.lookup
      ⟨[(0, Obj.record [("a", Val.prim (Prim.vnum 1))]),
        (1, Obj.record [("a", Val.prim (Prim.vnum 1))])], 2⟩ 1 =
      some (Obj.record [("a", Val.prim (Prim.vnum 1))]) := by
  have hnf : ¬ FReach
      ⟨[(0, Obj.record []),
        (1, Obj.record [("a", Val.prim (Prim.vnum 1))])], 2⟩ (.ref 0) 1 := by
    intro hfr
    cases hfr with
    | step a b o w hl hw hr =>
      replace hl : some (Obj.record []) = some o := hl
      obtain rfl := (Option.some.inj hl).symm
      replace hw : w ∈ ([] : List Val) := hw
      cases hw
  exact ⟨by decide, rfl, rfl, hnf,
    claim_C4_amended 5
      ⟨[(0, Obj.record []),
        (1, Obj.record [("a", Val.prim (Prim.vnum 1))])], 2⟩
      (.ref 0) [.ref 1]
      ⟨[(0, Obj.record [("a", Val.prim (Prim.vnum 1))]),
        (1, Obj.record [("a", Val.prim (Prim.vnum 1))])], 2⟩
      (.ref 0) 1 (Obj.record [("a", Val.prim (Prim.vnum 1))])
      (by decide) rfl rfl hnf⟩
